import Mathlib

/-!
Shallow embedding of the flow traversal / branch resolution engine and the
embedded script evaluation helpers of the articy-js runtime, together with
proofs about the behaviour of its public operations.

Conventions used throughout:

* JavaScript strings are modelled as `List Char`.
* JavaScript numbers crossing the script boundary are modelled as integers
  (`Int`); the claims under study only involve integer arithmetic.
* In-place mutation of the variable store (a JS object passed by reference)
  is modelled with an explicit heap of stores addressed by natural-number
  references, so that aliasing between a state and its speculative clones is
  represented faithfully.
* Recursions of the source that are not structurally bounded (the branch
  collector, the advance skip-through) take a fuel argument and return
  `none` when the fuel runs out; `none` also models a thrown exception.
-/

namespace ArticyJs

/-- Node identifiers (`Id` in the source: plain strings). -/
abbrev NodeId := String

/-- A script-level value (the `Variable` union of the source:
boolean, number or string, plus `undefined` which script functions
may return). -/
inductive Variable where
  | vBool (b : Bool)
  | vNum (n : Int)
  | vStr (s : String)
  | vUndef
deriving DecidableEq, Repr

/-- The two-level variable store: namespace name to variable name to value.
The flow engine treats it as an opaque deeply-copyable value. -/
abbrev VariableStore := List (String × List (String × Variable))

/-- Association-list lookup mirroring JS property access (`obj[key]`,
`undefined` when absent). -/
def alistGet {α : Type} (l : List (NodeId × α)) (key : NodeId) : Option α :=
  (l.find? (fun p => p.1 == key)).map (fun p => p.2)

/-- Association-list update mirroring JS property assignment
(`obj[key] = v`): replaces the binding if present, otherwise appends. -/
def alistSet {α : Type} (l : List (NodeId × α)) (key : NodeId) (v : α) :
    List (NodeId × α) :=
  if (l.find? (fun p => p.1 == key)).isSome then
    l.map (fun p => if p.1 == key then (p.1, v) else p)
  else
    l ++ [(key, v)]

/-- `VisitSet` of the source: visit counts and last-visited turn indices,
keyed by node id (absent key = never visited). -/
structure VisitSet where
  counts : List (NodeId × Nat)
  indicies : List (NodeId × Int)
deriving DecidableEq, Repr

/-- `EmptyVisitSet` of the source. -/
def EmptyVisitSet : VisitSet := ⟨[], []⟩

/-- `visits.counts[id] = (visits.counts[id] ?? 0) + 1` -/
def bumpCount (l : List (NodeId × Nat)) (key : NodeId) : List (NodeId × Nat) :=
  alistSet l key ((alistGet l key).getD 0 + 1)

/-! ## Script layer: comment scrubbing and script entry points

The embedded definitions correspond to `scrubComments`, `runScriptRaw` and
`runScript` in `script.ts`, and to the built-in script function `limit`
registered in `scriptFunctions`.  The dynamic JS evaluation performed by
`new Function(...).call(...)` is abstracted as an oracle argument `evalJs`;
the properties proved below quantify over every oracle, expressing that the
code paths under study never reach the dynamic evaluation. -/

/-- ECMAScript line terminators, the characters excluded by `.` in a regex
and matched before by a multiline `$`: LF, CR, LINE SEPARATOR (U+2028),
PARAGRAPH SEPARATOR (U+2029). -/
def isRegexLineTerm (c : Char) : Bool :=
  c == '\n' || c == '\r' || c == '\u2028' || c == '\u2029'

/-- The two line terminators NOT matched by the class `(.|[\r\n])` used for
block-comment bodies in the regex of `scrubComments`. -/
def isLSPS (c : Char) : Bool :=
  c == '\u2028' || c == '\u2029'

/-- Characters stripped by JavaScript `String.prototype.trim`
(ECMAScript WhiteSpace and LineTerminator). -/
def isJsWs (c : Char) : Bool :=
  c == ' ' || c == '\t' || c == '\n' || c == '\r' || c == '\x0b' ||
  c == '\x0c' || c == '\u00A0' || c == '\uFEFF' || c == '\u1680' ||
  ('\u2000' ≤ c && c ≤ '\u200A') || c == '\u202F' || c == '\u205F' ||
  c == '\u3000' || c == '\u2028' || c == '\u2029'

/-- JavaScript `trim` on a character list. -/
def jsTrim (l : List Char) : List Char :=
  ((l.dropWhile isJsWs).reverse.dropWhile isJsWs).reverse

/-- `occAt t p`: the two-character sequence `*/` occurs in `t` at
position `p`. -/
def occAt (t : List Char) (p : Nat) : Bool :=
  t[p]? == some '*' && t[p + 1]? == some '/'

/-- Length of the longest prefix free of LS/PS characters: the backtracking
star `(.|[\r\n])*` can only consume characters inside this prefix. -/
def reachLen (t : List Char) : Nat :=
  (t.takeWhile (fun c => !isLSPS c)).length

/-- Last position `p ≤ n` at which `*/` occurs in `t`. -/
def lastOccUpTo (t : List Char) : Nat → Option Nat
  | 0 => if occAt t 0 then some 0 else none
  | n + 1 => if occAt t (n + 1) then some (n + 1) else lastOccUpTo t n

/-- Given the text following a `/*`, the position of the `*/` chosen by the
greedy, backtracking match of the alternative matching block comments:
the last occurrence of `*/` all of whose preceding characters are
consumable by the star. -/
def blockEnd (t : List Char) : Option Nat :=
  lastOccUpTo t (reachLen t)

/-- One global pass of the regex replacement in `scrubComments`
(line-comment alternative tried first at each position, then the
block-comment alternative; on failure the scan advances one character).
The fuel is only a structural-recursion device: `scrubAux` below always
supplies enough, and the result is fuel-independent once the fuel reaches
the length of the input. -/
def scrubAuxF : Nat → List Char → List Char
  | 0, l => l
  | _ + 1, [] => []
  | _ + 1, [c] => [c]
  | f + 1, c :: c2 :: rest =>
    if c = '/' ∧ c2 = '/' then
      scrubAuxF f (rest.dropWhile (fun x => !isRegexLineTerm x))
    else if c = '/' ∧ c2 = '*' then
      match blockEnd rest with
      | some k => scrubAuxF f (rest.drop (k + 2))
      | none => c :: scrubAuxF f (c2 :: rest)
    else c :: scrubAuxF f (c2 :: rest)

/-- The comment-removing replacement of `scrubComments`. -/
def scrubAux (l : List Char) : List Char :=
  scrubAuxF l.length l

/-- `scrubComments` of the source: remove comments, then `trim`. -/
def scrubComments (l : List Char) : List Char :=
  jsTrim (scrubAux l)

/-- Splits at the first `*/` sequence: returns the body before it and the
text after it.  This is how JavaScript itself delimits a block comment. -/
def splitClose : List Char → Option (List Char × List Char)
  | [] => none
  | [_] => none
  | c :: c2 :: rest =>
    if c = '*' ∧ c2 = '/' then some ([], rest)
    else (splitClose (c2 :: rest)).map (fun pr => (c :: pr.1, pr.2))

/-- Does the text contain the two-character sequence `*/`? -/
def containsStarSlash : List Char → Bool
  | [] => false
  | [_] => false
  | c :: c2 :: rest => (c = '*' ∧ c2 = '/') || containsStarSlash (c2 :: rest)

/-- Fuelled recogniser underlying `onlyCommentsWs`; the fuel is only a
structural-recursion device (the input length always suffices). -/
def onlyCommentsWsF : Nat → List Char → Bool
  | 0, l => l.isEmpty
  | _ + 1, [] => true
  | _ + 1, [c] => isJsWs c
  | f + 1, c :: c2 :: rest =>
    if c = '/' ∧ c2 = '/' then
      onlyCommentsWsF f (rest.dropWhile (fun x => !isRegexLineTerm x))
    else if c = '/' ∧ c2 = '*' then
      match splitClose rest with
      | some (_, after) => onlyCommentsWsF f after
      | none => false
    else isJsWs c && onlyCommentsWsF f (c2 :: rest)

/-- The script consists solely of whitespace, line comments and block
comments, in the sense of JavaScript tokenization (a line comment runs to
the next line terminator; a block comment runs to the first `*/`).
This is the hypothesis of the claim about all-comment scripts. -/
def onlyCommentsWs (l : List Char) : Bool :=
  onlyCommentsWsF l.length l

/-- Fuelled recogniser underlying `cleanCommentsWs`. -/
def cleanCommentsWsF : Nat → List Char → Bool
  | 0, l => l.isEmpty
  | _ + 1, [] => true
  | _ + 1, [c] => isJsWs c
  | f + 1, c :: c2 :: rest =>
    if c = '/' ∧ c2 = '/' then
      !containsStarSlash (rest.takeWhile (fun x => !isRegexLineTerm x)) &&
      cleanCommentsWsF f (rest.dropWhile (fun x => !isRegexLineTerm x))
    else if c = '/' ∧ c2 = '*' then
      match splitClose rest with
      | some (body, after) =>
          body.all (fun x => !isLSPS x) && cleanCommentsWsF f after
      | none => false
    else isJsWs c && cleanCommentsWsF f (c2 :: rest)

/-- Like `onlyCommentsWs`, with the two side conditions actually needed for
the scrubbing regex to erase everything: no line-comment body contains the
sequence `*/`, and no block-comment body contains U+2028/U+2029. -/
def cleanCommentsWs (l : List Char) : Bool :=
  cleanCommentsWsF l.length l

/-- Outcome of `runScriptRaw`: the returned value together with a flag
recording whether the dynamically compiled script function was built and
called at all (the claims assert it is not, for comment-only scripts). -/
structure RawOutcome where
  result : Variable
  invoked : Bool
deriving DecidableEq, Repr

/-- `runScriptRaw` of `script.ts`.  `evalJs` abstracts the evaluation of the
scrubbed script text by `new Function(...)` and its invocation with the
variable sets and wrapped script functions; its first argument is the
`returns` flag (which decides whether a `return` is prepended to the body).
A `none` script models the `undefined` case. -/
def runScriptRaw (evalJs : Bool → List Char → Variable)
    (script : Option (List Char)) (rtns _shadowing : Bool) : RawOutcome :=
  match script with
  | none => ⟨.vBool true, false⟩
  | some s =>
    if s = [] then ⟨.vBool true, false⟩
    else
      let s2 := scrubComments s
      if s2 = [] then ⟨.vBool true, false⟩
      else ⟨evalJs rtns s2, true⟩

/-- `runScript` of `script.ts`: runs the raw script and compares the result
with `true` using strict equality (`result === true`). -/
def runScript (evalJs : Bool → List Char → Variable)
    (script : Option (List Char)) (rtns shadowing : Bool) : Bool :=
  decide ((runScriptRaw evalJs script rtns shadowing).result = .vBool true)

/-- The built-in script function `limit` of `scriptFunctions.ts`:
returns false for a non-numeric argument; then, with
`count = context.visits.counts[context.caller]`, returns false when the
count is absent and the argument is `0`, true when the count is absent or
less than the argument, and false otherwise. -/
def limit (visits : VisitSet) (caller : NodeId) (max : Variable) : Variable :=
  match max with
  | .vNum m =>
    match alistGet visits.counts caller with
    | none => if m = 0 then .vBool false else .vBool true
    | some c => if (c : Int) < m then .vBool true else .vBool false
  | _ => .vBool false

/-- Visit count with the absent-means-zero reading used by the
specification's wording for `limit`. -/
def visitCountD (visits : VisitSet) (caller : NodeId) : Nat :=
  (alistGet visits.counts caller).getD 0

/-! ## Flow layer: heap of variable stores

JS passes the variable store around by reference and node scripts mutate it
in place; the engine defends against speculative mutation by replacing the
reference with a deep clone (`cloneVariableStore`) before stepping through
a node that may mutate.  We model this with an explicit heap: references
are natural numbers, `alloc` models cloning/creation, `write` models an
in-place mutation visible through every alias of the same reference. -/

structure Heap where
  size : Nat
  mem : Nat → VariableStore

def Heap.read (h : Heap) (r : Nat) : VariableStore := h.mem r

def Heap.write (h : Heap) (r : Nat) (v : VariableStore) : Heap :=
  ⟨h.size, fun i => if i = r then v else h.mem i⟩

def Heap.alloc (h : Heap) (v : VariableStore) : Heap × Nat :=
  (⟨h.size + 1, fun i => if i = h.size then v else h.mem i⟩, h.size)

/-- `h'` is `h` with possibly more cells, all old cells reading the same:
the observable heap effect of a purely speculative walk. -/
def HeapExtends (h' h : Heap) : Prop :=
  (∀ r, r < h.size → h'.read r = h.read r) ∧ h.size ≤ h'.size

/-- Opaque connection metadata (`ConnectionProps`): the engine only
accumulates these and hands them to the custom stop handler. -/
abbrev Conn := String

/-- `FlowBranch` of the source. -/
structure FlowBranch where
  index : Int
  path : List NodeId
  branchedFrom : NodeId
deriving DecidableEq, Repr

/-- Semantic interface of a flow node (`BaseFlowNode`): the four traversal
primitives, plus the data consulted by `shouldStopAt`.  In-place mutation
of the variable store by `next`/`execute` is modelled by returning the new
store value, which the caller writes back to the store's heap reference.
`numBranches` is modelled as read-only and the visit set as read-only
throughout, per the source's contract that traversal behaviour is a pure
function of the context and that only `next`/`execute` may mutate the
variable store. -/
structure FlowNode where
  nid : NodeId
  numBranches : VariableStore → VisitSet → Option NodeId → Bool → Nat
  nextStep : VariableStore → VisitSet → Int → Option NodeId → Bool →
      Option (NodeId × Option Conn) × VariableStore
  needsShadow : Bool
  execute : VariableStore → VisitSet → VariableStore
  forcedVisits : VariableStore → VisitSet → List NodeId
  isType : String → Bool
  templateFeatures : Option (List String)

/-- The database interface consumed by the iterator: lookup by id and the
fresh global-variable store.  Real databases are closed (every id produced
by a node's `next` resolves), and looking up the id of the node returned
by `next` yields that node; the embedding resolves successors through
`getObject`, which coincides with the source on closed databases. -/
structure DB where
  getObject : NodeId → Option FlowNode
  newVariableStore : VariableStore

/-- `CustomStopType` of the source. -/
inductive CustomStopType where
  | NormalStop
  | StopAndContinue
  | Continue
  | Drop
  | CreatePage
  | Advance
deriving DecidableEq, Repr

/-- `GameIterationConfig` of the source.  The ambient application state fed
to the handler by `GetState()` is folded into the handler closure. -/
structure GameIterationConfig where
  stopAtTypes : List String
  stopAtFeatures : Option (List String)
  customStopHandler :
      Option (FlowNode → List Conn → VisitSet → Option CustomStopType)

/-- `SimpleFlowState` of the source; `variables` is a heap reference. -/
structure SimpleFlowState where
  id : Option NodeId
  last : Option NodeId
  varsRef : Nat
  shadowing : Bool

/-- An entry of `GameFlowState.mergePages`. -/
structure MergePage where
  id : NodeId
  last : Option NodeId
deriving DecidableEq, Repr

/-- `GameFlowState` of the source; `variables` is a heap reference. -/
structure GameFlowState where
  id : Option NodeId
  last : Option NodeId
  varsRef : Nat
  shadowing : Bool
  pages : List NodeId
  mergePages : List MergePage
  branches : List FlowBranch
  visits : VisitSet
  turn : Nat
  terminalBranch : Option FlowBranch
deriving DecidableEq, Repr

/-- `NullGameFlowState` of the source, with its (fresh) empty store at a
given reference. -/
def NullGameFlowStateAt (r : Nat) : GameFlowState :=
  { id := none, last := none, varsRef := r, shadowing := false,
    pages := [], mergePages := [], branches := [],
    visits := EmptyVisitSet, turn := 0, terminalBranch := none }

/-- `shouldStopAt` of the source: stop on a configured terminal type, or on
a configured terminal template feature. -/
def shouldStopAt (node : FlowNode) (config : GameIterationConfig) : Bool :=
  if (config.stopAtTypes.filter (fun t => node.isType t)).length > 0 then
    true
  else
    match node.templateFeatures, config.stopAtFeatures with
    | some feats, some fs => (fs.filter (fun f => feats.contains f)).length > 0
    | _, _ => false

/-- `basicNextFlowState` of the source: one step along a branch.  Returns
the updated heap, the new state, the node arrived at and the connection
taken.  The call to the node's `next` runs its scripts, mutating the store
at the state's reference; a dead end yields a nulled state with a fresh
empty store. -/
def basicNextFlowState (db : DB) (h : Heap) (state : SimpleFlowState)
    (branchIndex : Int) (visits : VisitSet) :
    Heap × SimpleFlowState × Option FlowNode × Option Conn :=
  match state.id with
  | none => (h, state, none, none)
  | some sid =>
    match db.getObject sid with
    | none =>
      let al := h.alloc []
      (al.1, ⟨none, none, al.2, state.shadowing⟩, none, none)
    | some node =>
      let stepped := node.nextStep (h.read state.varsRef) visits branchIndex
        state.last state.shadowing
      let h2 := h.write state.varsRef stepped.2
      match stepped.1 with
      | none =>
        let al := h2.alloc []
        (al.1, ⟨none, none, al.2, state.shadowing⟩, none, none)
      | some (nextId, conn) =>
        (h2, ⟨some nextId, some sid, state.varsRef, state.shadowing⟩,
         db.getObject nextId, conn)

/-- The partial record returned by `collectBranches`: each field is `none`
when the corresponding key is absent from the JS object (`Object.assign`
then leaves the target's field untouched).  The `terminalBranch` field
additionally distinguishes a present-but-undefined value. -/
structure CollectionResult where
  branches : Option (List FlowBranch)
  pages : Option (List NodeId)
  terminalBranch : Option (Option FlowBranch)
deriving DecidableEq, Repr

def emptyCR : CollectionResult := ⟨none, none, none⟩

/-- Key-union of two optional lists, as produced by `merge` in the source:
the key is present iff it is present in either argument, and then holds
the concatenation (missing side defaulting to `[]`). -/
def orKey {α : Type} : Option (List α) → Option (List α) → Option (List α)
  | none, none => none
  | x, y => some ((x.getD []) ++ (y.getD []))

/-- `merge` of the source.  The merged object always carries the
`terminalBranch` key, with value `a.terminalBranch ?? b.terminalBranch`. -/
def mergeCR (a b : CollectionResult) : CollectionResult :=
  ⟨orKey a.branches b.branches, orKey a.pages b.pages,
   some (match a.terminalBranch.join with
         | some tb => some tb
         | none => b.terminalBranch.join)⟩

/-- The three recursion sites of `collectBranches` flattened into one
fuelled function: `entry` is the function prologue, `loop` is one test of
the while loop, `forks` is one iteration of the final for loop over fork
directions. -/
inductive CollectCall where
  | entry (iter : SimpleFlowState) (branch : Option FlowBranch) (index : Int)
      (direction : Int) (node : Option FlowNode) (conns : List Conn)
  | loop (iter : SimpleFlowState) (branch : FlowBranch) (index : Int)
      (direction : Int) (node : FlowNode) (conns : List Conn) (nb : Nat)
  | forks (iter : SimpleFlowState) (branch : FlowBranch) (index : Int)
      (node : FlowNode) (conns : List Conn) (nb : Nat) (i : Nat)
      (acc : CollectionResult)

/-- The clone-then-step prologue of one loop iteration of `collectBranches`:
clone the iterator's store when the node needs shadowing, then take one basic
step from the (possibly cloned) iterator. -/
def cloneStep (db : DB) (h : Heap) (node : FlowNode) (iter : SimpleFlowState)
    (direction : Int) (visits : VisitSet) :
    Heap × SimpleFlowState × Option FlowNode × Option Conn :=
  let cl :=
    if node.needsShadow then
      let al := h.alloc (h.read iter.varsRef)
      (al.1, { iter with varsRef := al.2 })
    else (h, iter)
  basicNextFlowState db cl.1 cl.2 direction visits

/-- `collectBranches` of the source (fuelled; `none` = fuel exhausted,
which only happens on graphs whose traversal does not terminate). -/
def collectGo (db : DB) (config : GameIterationConfig) (visits : VisitSet) :
    Nat → Heap → CollectCall → Option (Heap × CollectionResult)
  | 0, _, _ => none
  | f + 1, h, .entry iter branch0 index direction node0 conns =>
    match iter.id with
    | none => some (h, emptyCR)
    | some sid =>
      match (match node0 with | some n => some n | none => db.getObject sid) with
      | none => some (h, emptyCR)
      | some node =>
        let branch := branch0.getD ⟨index, [], sid⟩
        let nb := node.numBranches (h.read iter.varsRef) visits iter.last
          iter.shadowing
        collectGo db config visits f h (.loop iter branch index direction node conns nb)
  | f + 1, h, .loop iter branch index direction node conns nb =>
    if nb = 1 ∨ 0 ≤ direction then
      let stepped := cloneStep db h node iter direction visits
      let h2 := stepped.1
      let iter2 := stepped.2.1
      let conns2 := match stepped.2.2.2 with
        | some cn => conns ++ [cn]
        | none => conns
      match stepped.2.2.1 with
      | none => some (h2, ⟨none, none, some (some branch)⟩)
      | some node2 =>
        let branch2 := { branch with path := branch.path ++ [node2.nid] }
        if shouldStopAt node2 config then
          match config.customStopHandler with
          | none => some (h2, ⟨some [branch2], none, none⟩)
          | some handler =>
            match handler node2 conns2 visits with
            | some .NormalStop => some (h2, ⟨some [branch2], none, none⟩)
            | some .Advance => some (h2, ⟨some [branch2], none, none⟩)
            | none => some (h2, ⟨some [branch2], none, none⟩)
            | some .StopAndContinue =>
              let forked : FlowBranch :=
                ⟨index + 1, branch2.path, branch2.branchedFrom⟩
              match collectGo db config visits f h2
                  (.entry iter2 (some forked) (index + 1) 0 (some node2) []) with
              | none => none
              | some (h3, res) =>
                some (h3, mergeCR ⟨some [branch2], none, none⟩ res)
            | some .Drop => some (h2, emptyCR)
            | some .CreatePage =>
              match iter2.id with
              | some pid =>
                let newBranch := { branch2 with branchedFrom := pid }
                match collectGo db config visits f h2
                    (.entry iter2 (some newBranch) (index + 1) 0 (some node2) []) with
                | none => none
                | some (h3, res) =>
                  some (h3, mergeCR ⟨none, some [pid], none⟩ res)
              | none =>
                let nb2 := node2.numBranches (h2.read iter2.varsRef) visits
                  iter2.last iter2.shadowing
                collectGo db config visits f h2
                  (.loop iter2 branch2 index (-1) node2 conns2 nb2)
            | some .Continue =>
              let nb2 := node2.numBranches (h2.read iter2.varsRef) visits
                iter2.last iter2.shadowing
              collectGo db config visits f h2
                (.loop iter2 branch2 index (-1) node2 conns2 nb2)
        else
          let nb2 := node2.numBranches (h2.read iter2.varsRef) visits
            iter2.last iter2.shadowing
          collectGo db config visits f h2
            (.loop iter2 branch2 index (-1) node2 conns2 nb2)
    else if nb = 0 then some (h, ⟨none, none, some (some branch)⟩)
    else collectGo db config visits f h (.forks iter branch index node conns nb 0 emptyCR)
  | f + 1, h, .forks iter branch index node conns nb i acc =>
    if i < nb then
      let forked : FlowBranch := ⟨index, branch.path, branch.branchedFrom⟩
      match collectGo db config visits f h
          (.entry iter (some forked) index (i : Int) (some node) conns) with
      | none => none
      | some (h2, res) =>
        let acc2 := mergeCR acc res
        let index2 := match (acc2.branches.getD []).getLast? with
          | some lb => lb.index + 1
          | none => index
        collectGo db config visits f h2 (.forks iter branch index2 node conns nb (i + 1) acc2)
    else some (h, acc)

/-- `state.branches.length === 0 ? -1 : Math.max(...indices)` -/
def maxBranchIndex : List FlowBranch → Int
  | [] => -1
  | b :: t => t.foldl (fun m x => max m x.index) b.index

/-- `Object.assign(result, collectionResult)`: fields overwrite the target
only when the corresponding key is present. -/
def applyCR (s : GameFlowState) (cr : CollectionResult) : GameFlowState :=
  { s with
    branches := cr.branches.getD s.branches
    pages := cr.pages.getD s.pages
    terminalBranch := match cr.terminalBranch with
      | some v => v
      | none => s.terminalBranch }

/-- Renumbering used by `refreshBranches`/`mergeGameFlowState`:
`index + maxIdx + 1`. -/
def shiftBranches (bs : List FlowBranch) (m : Int) : List FlowBranch :=
  bs.map (fun b => { b with index := b.index + m + 1 })

/-- The merged-pages loop of `refreshBranches`: for each merged page,
collect branches from that page and append them (renumbered past the
current maximum index) together with its pages. -/
def mergePagesLoop (db : DB) (config : GameIterationConfig) (fuel : Nat) :
    Heap → GameFlowState → List MergePage → Option (Heap × GameFlowState)
  | h, result, [] => some (h, result)
  | h, result, page :: rest =>
    match collectGo db config result.visits fuel h
        (.entry ⟨some page.id, page.last, result.varsRef, result.shadowing⟩
          none 0 (-1) none []) with
    | none => none
    | some (h2, cr) =>
      let r1 := { result with pages := result.pages ++ [page.id] }
      let maxIdx := maxBranchIndex r1.branches
      let r2 := match cr.pages with
        | some ps => { r1 with pages := r1.pages ++ ps }
        | none => r1
      let r3 := match cr.branches with
        | some bs => { r2 with branches := r2.branches ++ shiftBranches bs maxIdx }
        | none => r2
      mergePagesLoop db config fuel h2 r3 rest

/-- `refreshBranches` of the source: shadow collection for the primary
position (the iterator passed to the collector shares the state's variable
store reference), then the merged-pages loop. -/
def refreshBranches (db : DB) (config : GameIterationConfig) (fuel : Nat)
    (h : Heap) (state : GameFlowState) : Option (Heap × GameFlowState) :=
  match collectGo db config state.visits fuel h
      (.entry ⟨state.id, state.last, state.varsRef, true⟩ none 0 (-1) none []) with
  | none => none
  | some (h1, cr) =>
    let result0 := applyCR { state with pages := [] } cr
    let result1 := match state.id with
      | some sid => { result0 with pages := sid :: result0.pages }
      | none => result0
    mergePagesLoop db config fuel h1 result1 state.mergePages

/-- `executeFlowBranch` of the source: resolve the path (a missing id makes
the JS crash, modelled as `none`), then execute every node on it
non-speculatively: clone the store on first meeting a mutating node,
run the node's `execute`, record its visit at the state's turn, and record
any extra visits the node declares.  Feature/template execution handlers
(`OnNodeExecution`) are host collaborators outside this core and are not
modelled.  Returns the heap, the resulting store reference, the new visit
set and the resolved path. -/
def executeFlowBranch (db : DB) (h : Heap) (state : GameFlowState)
    (branch : FlowBranch) : Option (Heap × Nat × VisitSet × List FlowNode) :=
  match branch.path.mapM db.getObject with
  | none => none
  | some steps =>
    let final := steps.foldl
      (fun acc step =>
        let stage :=
          if acc.2.2.1 = false ∧ step.needsShadow = true then
            let al := acc.1.alloc (acc.1.read acc.2.1)
            (al.1, al.2, true)
          else (acc.1, acc.2.1, acc.2.2.1)
        let h2 := stage.1.write stage.2.1
          (step.execute (stage.1.read stage.2.1) acc.2.2.2)
        let visits1 : VisitSet :=
          ⟨bumpCount acc.2.2.2.counts step.nid,
           alistSet acc.2.2.2.indicies step.nid (state.turn : Int)⟩
        let forced := step.forcedVisits (h2.read stage.2.1) visits1
        let visits2 := forced.foldl
          (fun vs fid =>
            ⟨bumpCount vs.counts fid, alistSet vs.indicies fid (state.turn : Int)⟩)
          visits1
        (h2, stage.2.1, stage.2.2, visits2))
      ((h, state.varsRef, false, state.visits) : Heap × Nat × Bool × VisitSet)
    some (final.1, final.2.1, final.2.2.2, steps)

/-- `advanceGameFlowState` of the source (fuelled on the `Advance`
skip-through recursion).  Returns the heap, the new state and the node
arrived at. -/
def advanceGameFlowState (db : DB) (config : GameIterationConfig)
    (cfuel : Nat) : Nat → Heap → GameFlowState → Int →
    Option (Heap × GameFlowState × Option FlowNode)
  | 0, _, _, _ => none
  | afuel + 1, h, state, branchIndex =>
    match state.id with
    | none => some (h, state, none)
    | some sid =>
      match state.branches.find? (fun b => b.index == branchIndex) with
      | none => some (h, state, none)
      | some branch =>
        match executeFlowBranch db h state branch with
        | none => none
        | some (h1, varsRef, visits1, steps) =>
          match steps.getLast? with
          | none => none
          | some curr =>
            let lastId : Option NodeId :=
              if 1 < branch.path.length then
                (steps.get? (branch.path.length - 2)).map (fun n => n.nid)
              else
                (db.getObject sid).map (fun n => n.nid)
            let newState : GameFlowState :=
              { id := some curr.nid, last := lastId, varsRef := varsRef,
                shadowing := false, pages := [curr.nid], mergePages := [],
                branches := [], visits := visits1, turn := state.turn + 1,
                terminalBranch := none }
            match refreshBranches db config cfuel h1 newState with
            | none => none
            | some (h2, newState2) =>
              let doAdv : Bool := newState2.branches.length > 0 &&
                (match config.customStopHandler with
                 | some handler =>
                     handler curr [] newState2.visits == some .Advance
                 | none => false)
              if doAdv then
                advanceGameFlowState db config cfuel afuel h2 newState2 0
              else some (h2, newState2, some curr)

/-- `startupGameFlowState` of the source.  `existing` carries the variable
store reference, visit set and turn of an existing state (sharing the
store reference, exactly as the source shares the store object). -/
def startupGameFlowState (db : DB) (config : GameIterationConfig)
    (cfuel afuel : Nat) (h : Heap) (start : NodeId)
    (existing : Option (Nat × VisitSet × Nat)) :
    Option (Heap × GameFlowState × Option FlowNode) :=
  let hv := match existing with
    | some e => (h, e.1)
    | none => h.alloc db.newVariableStore
  let initial : GameFlowState :=
    { id := some start, last := none, varsRef := hv.2, shadowing := false,
      pages := [start], mergePages := [], branches := [],
      visits := (match existing with | some e => e.2.1 | none => EmptyVisitSet),
      turn := (match existing with | some e => e.2.2 | none => 0),
      terminalBranch := none }
  match refreshBranches db config cfuel hv.1 initial with
  | none => none
  | some (h1, initial1) =>
    match db.getObject start with
    | none =>
      let al := h1.alloc []
      some (al.1, NullGameFlowStateAt al.2, none)
    | some node =>
      let h2 := h1.write initial1.varsRef
        (node.execute (h1.read initial1.varsRef) initial1.visits)
      let visits2 : VisitSet :=
        ⟨bumpCount initial1.visits.counts start,
         alistSet initial1.visits.indicies start (initial1.turn : Int)⟩
      let initial2 := { initial1 with visits := visits2 }
      if shouldStopAt node config then
        some (h2, { initial2 with turn := initial2.turn + 1 }, some node)
      else
        advanceGameFlowState db config cfuel afuel h2 initial2 0

/-- `mergeGameFlowState` of the source: an independent startup at `start`
reusing the state's variables/visits/turn, whose pages and branches
(renumbered past the current maximum) are unioned into the existing
state without changing its reported position. -/
def mergeGameFlowState (db : DB) (config : GameIterationConfig)
    (cfuel afuel : Nat) (h : Heap) (state : GameFlowState) (start : NodeId) :
    Option (Heap × GameFlowState) :=
  match startupGameFlowState db config cfuel afuel h start
      (some (state.varsRef, state.visits, state.turn)) with
  | none => none
  | some (h1, su, _) =>
    let maxIdx := maxBranchIndex state.branches
    some (h1,
      { su with
        id := state.id
        last := state.last
        pages := state.pages ++ su.pages
        mergePages := state.mergePages ++
          (match su.id with
           | some nid => [{ id := nid, last := su.last }]
           | none => [])
        branches := state.branches ++ shiftBranches su.branches maxIdx })

/-- The position-clearing common to both cases of `completeFlow`. -/
def clearPosition (s : GameFlowState) : GameFlowState :=
  { s with id := none, last := none, branches := [], terminalBranch := none,
           mergePages := [], pages := [] }

/-- `completeFlow` of the source: with branches still available or no
terminal branch, clear the position without side effects; otherwise run
the fallback terminal branch non-speculatively and then clear. -/
def completeFlow (db : DB) (h : Heap) (state : GameFlowState) :
    Option (Heap × GameFlowState) :=
  match state.terminalBranch with
  | none => some (h, clearPosition state)
  | some tb =>
    if state.branches.length > 0 then some (h, clearPosition state)
    else
      match executeFlowBranch db h state tb with
      | none => none
      | some (h1, newRef, visits1, _) =>
        let cleared := clearPosition state
        some (h1, { cleared with varsRef := newRef, visits := visits1 })

/-- The documented contract of `BaseFlowNode.needsShadow`: a node whose
`needsShadow()` is false does not modify the variable store during `next`.
All node classes of the source satisfy it: only `OutputPin` and
`Instruction` run a script inside `next`, and both report `needsShadow`
exactly when they carry a script. -/
def NodeContract (n : FlowNode) : Prop :=
  n.needsShadow = false →
    ∀ v vs bi l sh, (n.nextStep v vs bi l sh).2 = v

/-- Every node of the database satisfies the `needsShadow` contract. -/
def DBContract (db : DB) : Prop :=
  ∀ i n, db.getObject i = some n → NodeContract n

/-- Branch indices are pairwise distinct. -/
def NoDupIdx (bs : List FlowBranch) : Prop :=
  (bs.map (fun b => b.index)).Nodup

/-- All branch indices are non-negative. -/
def NonNegIdx (bs : List FlowBranch) : Prop :=
  ∀ b ∈ bs, 0 ≤ b.index

/-- Branch indices are strictly increasing along the list. -/
def IdxSorted (bs : List FlowBranch) : Prop :=
  bs.Chain' (fun a b => a.index < b.index)

instance (bs : List FlowBranch) : Decidable (NoDupIdx bs) := by
  unfold NoDupIdx
  infer_instance

instance (bs : List FlowBranch) : Decidable (NonNegIdx bs) := by
  unfold NonNegIdx
  infer_instance

instance instIdxSortedDec : (bs : List FlowBranch) → Decidable (IdxSorted bs)
  | [] => isTrue List.chain'_nil
  | [a] => isTrue (List.chain'_singleton a)
  | a :: b :: t =>
    match Int.decLt a.index b.index, instIdxSortedDec (b :: t) with
    | isTrue h1, isTrue h2 => isTrue (List.chain'_cons.mpr ⟨h1, h2⟩)
    | isFalse h1, _ => isFalse (fun hch => h1 (List.chain'_cons.mp hch).1)
    | _, isFalse h2 => isFalse (fun hch => h2 (List.chain'_cons.mp hch).2)

/-- State projection of an iteration result, for witness statements (the
heap and node components contain functions and are not compared). -/
def iterResState : Option (Heap × GameFlowState × Option FlowNode) →
    Option GameFlowState :=
  Option.map (fun r => r.2.1)

/-- State projection of a refresh/merge/complete result. -/
def opResState : Option (Heap × GameFlowState) → Option GameFlowState :=
  Option.map (fun r => r.2)

/-! ## Concrete instances used by witnesses and counterexamples -/

/-- A script made only of a block comment, whitespace and a line comment;
the line comment's body contains the sequence `*/`. -/
def c9Script : List Char := "/* a */ // x */ y".toList

/-- A node with one unconditional branch to `target`, mirroring a node
whose single output pin (without script) leads to `target`. -/
def simpleNode (i target : NodeId) (stop : Bool) : FlowNode :=
  { nid := i
    numBranches := fun _ _ _ _ => 1
    nextStep := fun v _ _ _ _ => (some (target, none), v)
    needsShadow := false
    execute := fun v _ => v
    forcedVisits := fun _ _ => []
    isType := fun t => stop && (t == "DialogueFragment")
    templateFeatures := none }

/-- A terminal node with no outgoing branches. -/
def endNode (i : NodeId) (stop : Bool) : FlowNode :=
  { nid := i
    numBranches := fun _ _ _ _ => 0
    nextStep := fun v _ _ _ _ => (none, v)
    needsShadow := false
    execute := fun v _ => v
    forcedVisits := fun _ _ => []
    isType := fun t => stop && (t == "DialogueFragment")
    templateFeatures := none }

/-- Three-node chain `A → B → C`, with `B` and `C` of the configured
terminal type. -/
def dbChain : DB :=
  { getObject := fun i =>
      if i = "A" then some (simpleNode "A" "B" false)
      else if i = "B" then some (simpleNode "B" "C" true)
      else if i = "C" then some (endNode "C" true)
      else none
    newVariableStore := [] }

/-- Configuration without a custom stop handler. -/
def cfgPlain : GameIterationConfig :=
  { stopAtTypes := ["DialogueFragment"], stopAtFeatures := none,
    customStopHandler := none }

/-- Configuration whose custom stop handler requests `Advance` at `B` and
a normal stop elsewhere. -/
def cfgAdvanceAtB : GameIterationConfig :=
  { stopAtTypes := ["DialogueFragment"], stopAtFeatures := none,
    customStopHandler :=
      some (fun n _ _ =>
        if n.nid == "B" then some .Advance else some .NormalStop) }

/-- A one-cell heap holding an empty store at reference 0. -/
def heap1 : Heap := ⟨1, fun _ => []⟩

/-- A state positioned at `A` whose branch cache carries the path to `B`. -/
def stateAtA : GameFlowState :=
  { id := some "A", last := none, varsRef := 0, shadowing := false,
    pages := ["A"], mergePages := [], branches := [⟨0, ["B"], "A"⟩],
    visits := ⟨[], []⟩, turn := 0, terminalBranch := none }

/-- A state whose cached branches carry a duplicated index. -/
def stateDupIdx : GameFlowState :=
  { id := some "X", last := none, varsRef := 0, shadowing := false,
    pages := ["X"], mergePages := [],
    branches := [⟨0, ["Y"], "X"⟩, ⟨0, ["Z"], "X"⟩],
    visits := ⟨[], []⟩, turn := 0, terminalBranch := none }

/-- The empty database. -/
def dbEmpty : DB := ⟨fun _ => none, []⟩

/-- A state with no cached branches and a fallback terminal branch through
`C`. -/
def stateFallback : GameFlowState :=
  { id := some "C", last := some "B", varsRef := 0, shadowing := false,
    pages := ["C"], mergePages := [], branches := [],
    visits := ⟨[], []⟩, turn := 3, terminalBranch := some ⟨0, ["C"], "C"⟩ }

/-- The lower bound, per recursion site, below which `collectBranches`
never emits a branch index. -/
def callIdxBase : CollectCall → Int
  | .entry _ branch index _ _ _ =>
    match branch with
    | some b => b.index
    | none => index
  | .loop _ branch _ _ _ _ _ => branch.index
  | .forks _ branch _ _ _ _ _ _ => branch.index

/-- The branch-index bookkeeping invariant carried along the recursion of
`collectBranches`. -/
def CallIdxOk : CollectCall → Prop
  | .entry _ branch index _ _ _ => ∀ b, branch = some b → b.index ≤ index
  | .loop _ branch index _ _ _ _ => branch.index ≤ index
  | .forks _ branch index _ _ _ _ acc =>
      branch.index ≤ index ∧ IdxSorted (acc.branches.getD []) ∧
      ∀ x ∈ acc.branches.getD [], branch.index ≤ x.index ∧ x.index < index

/-- The node object carried by a recursion site is the database object of
the iterator's current id (true along every recursion of the collector,
mirroring the source where the carried object is the object itself). -/
def nodeMatches (db : DB) (iter : SimpleFlowState) (node : FlowNode) : Prop :=
  ∃ sid, iter.id = some sid ∧ db.getObject sid = some node

def CallNodeOk (db : DB) : CollectCall → Prop
  | .entry iter _ _ _ node0 _ => ∀ n, node0 = some n → nodeMatches db iter n
  | .loop iter _ _ _ node _ _ => nodeMatches db iter node
  | .forks iter _ _ node _ _ _ _ => nodeMatches db iter node

/-- The variable-store reference of the call's iterator. -/
def callRef : CollectCall → Nat
  | .entry iter _ _ _ _ _ => iter.varsRef
  | .loop iter _ _ _ _ _ _ => iter.varsRef
  | .forks iter _ _ _ _ _ _ _ => iter.varsRef

/-- Two iterators that agree on everything except possibly the store
reference. -/
def iterSim (a b : SimpleFlowState) : Prop :=
  b.id = a.id ∧ b.last = a.last ∧ b.shadowing = a.shadowing

/-- Two collector calls that agree on everything except possibly the
iterator's store reference. -/
def CallSim : CollectCall → CollectCall → Prop
  | .entry ia b i d n c, .entry ib b2 i2 d2 n2 c2 =>
    iterSim ia ib ∧ b = b2 ∧ i = i2 ∧ d = d2 ∧ n = n2 ∧ c = c2
  | .loop ia br i d n c nb, .loop ib br2 i2 d2 n2 c2 nb2 =>
    iterSim ia ib ∧ br = br2 ∧ i = i2 ∧ d = d2 ∧ n = n2 ∧ c = c2 ∧ nb = nb2
  | .forks ia br i n c nb j acc, .forks ib br2 i2 n2 c2 nb2 j2 acc2 =>
    iterSim ia ib ∧ br = br2 ∧ i = i2 ∧ n = n2 ∧ c = c2 ∧ nb = nb2 ∧
      j = j2 ∧ acc = acc2
  | _, _ => False

/-- The same call with the iterator's store reference replaced. -/
def callWithRef : CollectCall → Nat → CollectCall
  | .entry iter b i d n c, r => .entry { iter with varsRef := r } b i d n c
  | .loop iter b i d n c nb, r => .loop { iter with varsRef := r } b i d n c nb
  | .forks iter b i n c nb j acc, r =>
      .forks { iter with varsRef := r } b i n c nb j acc

def forkNode (i t0 t1 : NodeId) : FlowNode :=
  { nid := i
    numBranches := fun _ _ _ _ => 2
    nextStep := fun v _ bi _ _ => (some (if bi ≤ 0 then t0 else t1, none), v)
    needsShadow := false
    execute := fun v _ => v
    forcedVisits := fun _ _ => []
    isType := fun t => t == "DialogueFragment"
    templateFeatures := none }

def dbFork : DB :=
  { getObject := fun i =>
      if i = "Y" then some (forkNode "Y" "P" "Q")
      else if i = "P" then some (endNode "P" true)
      else if i = "Q" then some (endNode "Q" true)
      else none
    newVariableStore := [] }

def stateAtX : GameFlowState :=
  { id := some "X", last := none, varsRef := 0, shadowing := false,
    pages := ["X"], mergePages := [],
    branches := [⟨0, ["B1"], "X"⟩, ⟨1, ["B2"], "X"⟩, ⟨2, ["B3"], "X"⟩],
    visits := ⟨[], []⟩, turn := 0, terminalBranch := none }

/-- A state with a null primary position, no cached branches and one
merged page. -/
def stateMergeOnly : GameFlowState :=
  { id := none, last := none, varsRef := 0, shadowing := false,
    pages := [], mergePages := [⟨"Y", none⟩], branches := [],
    visits := ⟨[], []⟩, turn := 0, terminalBranch := none }

/-! ## Theorems -/

/-- C6 (counterexample): the claim reads `limit(n)` as "true iff the
caller's visit count (absent meaning 0) is strictly less than n".  At the
concrete input of an absent visit count and `n = -1`, the code returns
true although `0 < -1` is false: for an absent count the code returns true
for every nonzero argument, negative ones included. -/
theorem limit_c6_counterexample :
    limit ⟨[], []⟩ "0x01" (.vNum (-1)) = .vBool true ∧
    ¬(limit ⟨[], []⟩ "0x01" (.vNum (-1)) = .vBool true ↔
      ((visitCountD ⟨[], []⟩ "0x01" : Int) < -1)) := by
  constructor
  · rfl
  · intro hiff
    have h := hiff.mp rfl
    revert h
    decide

/-- C6 (amended): for numeric `n`, `limit(n)` is true iff the caller's
visit count is present and strictly less than `n`, or absent with `n`
nonzero.  In particular `limit(0)` is always false, and for `n > 0` the
result agrees with the claim's reading "count (absent = 0) < n". -/
theorem limit_characterization (vs : VisitSet) (c : NodeId) (n : Int) :
    limit vs c (.vNum n) = .vBool
      (match alistGet vs.counts c with
       | none => decide (n ≠ 0)
       | some k => decide ((k : Int) < n)) := by
  unfold limit
  cases h : alistGet vs.counts c with
  | none =>
    by_cases hn : n = 0 <;> simp [hn]
  | some k =>
    by_cases hk : (k : Int) < n <;> simp [hk]

/-- C10: for a non-empty script, `runScript` returns true exactly when the
raw evaluation result is the boolean `true` (strict equality, no
truthiness coercion): any other value, such as a nonzero number or a
non-empty string, yields false. -/
theorem runScript_strict_true (evalJs : Bool → List Char → Variable)
    (s : List Char) (rtns sh : Bool) (_hs : s ≠ []) :
    (runScript evalJs (some s) rtns sh = true ↔
      (runScriptRaw evalJs (some s) rtns sh).result = .vBool true) := by
  unfold runScript
  exact decide_eq_true_iff

/-- Witness for `runScript_strict_true`: an oracle returning the truthy
number 1 still makes `runScript` false. -/
theorem runScript_strict_true_witness :
    (runScript (fun _ _ => .vNum 1) (some ['x']) true false = true ↔
      (runScriptRaw (fun _ _ => .vNum 1) (some ['x']) true false).result =
        .vBool true) ∧
    runScript (fun _ _ => .vNum 1) (some ['x']) true false = false :=
  ⟨runScript_strict_true (fun _ _ => .vNum 1) ['x'] true false (by decide),
   by decide⟩

theorem occAt_zero_cons₂ (c c2 : Char) (t : List Char) :
    occAt (c :: c2 :: t) 0 = true ↔ c = '*' ∧ c2 = '/' := by
  simp [occAt]

theorem occAt_succ_cons (c : Char) (t : List Char) (p : Nat) :
    occAt (c :: t) (p + 1) = occAt t p := by
  simp [occAt]

theorem occAt_nil (p : Nat) : occAt [] p = false := by
  simp [occAt]

theorem occAt_singleton (c : Char) (p : Nat) : occAt [c] p = false := by
  match p with
  | 0 => simp [occAt]
  | q + 1 => rw [occAt_succ_cons]; exact occAt_nil q

theorem splitClose_append :
    ∀ (l b r : List Char), splitClose l = some (b, r) →
      l = b ++ '*' :: '/' :: r := by
  intro l
  induction l with
  | nil => intro b r h; simp [splitClose] at h
  | cons c t ih =>
    intro b r h
    cases t with
    | nil => simp [splitClose] at h
    | cons c2 t2 =>
      rw [splitClose] at h
      by_cases hc : c = '*' ∧ c2 = '/'
      · rw [if_pos hc] at h
        simp only [Option.some.injEq, Prod.mk.injEq] at h
        obtain ⟨hb, hr⟩ := h
        subst hb; subst hr
        simp [hc.1, hc.2]
      · rw [if_neg hc] at h
        cases hsc : splitClose (c2 :: t2) with
        | none => rw [hsc] at h; simp at h
        | some pr =>
          rw [hsc] at h
          simp only [Option.map_some', Option.some.injEq, Prod.mk.injEq] at h
          obtain ⟨hb, hr⟩ := h
          subst hb; subst hr
          have := ih pr.1 pr.2 (by rw [hsc])
          simp [this]

theorem splitClose_min :
    ∀ (l b r : List Char), splitClose l = some (b, r) →
      ∀ p, occAt l p = true → b.length ≤ p := by
  intro l
  induction l with
  | nil => intro b r h; simp [splitClose] at h
  | cons c t ih =>
    intro b r h p hp
    cases t with
    | nil => simp [splitClose] at h
    | cons c2 t2 =>
      rw [splitClose] at h
      by_cases hc : c = '*' ∧ c2 = '/'
      · rw [if_pos hc] at h
        simp only [Option.some.injEq, Prod.mk.injEq] at h
        obtain ⟨hb, _⟩ := h
        subst hb
        exact Nat.zero_le p
      · rw [if_neg hc] at h
        cases hsc : splitClose (c2 :: t2) with
        | none => rw [hsc] at h; simp at h
        | some pr =>
          rw [hsc] at h
          simp only [Option.map_some', Option.some.injEq, Prod.mk.injEq] at h
          obtain ⟨hb, _⟩ := h
          subst hb
          cases p with
          | zero => exact absurd ((occAt_zero_cons₂ c c2 t2).mp hp) hc
          | succ q =>
            rw [occAt_succ_cons] at hp
            have := ih pr.1 pr.2 (by rw [hsc]) q hp
            simpa using Nat.succ_le_succ this

theorem containsStarSlash_exists :
    ∀ (l : List Char), containsStarSlash l = true ↔ ∃ p, occAt l p = true := by
  intro l
  induction l with
  | nil => simp [containsStarSlash, occAt_nil]
  | cons c t ih =>
    cases t with
    | nil => simp [containsStarSlash, occAt_singleton]
    | cons c2 t2 =>
      rw [containsStarSlash]
      constructor
      · intro h
        rcases Bool.or_eq_true .. ▸ h with h1 | h2
        · exact ⟨0, (occAt_zero_cons₂ c c2 t2).mpr (by simpa using h1)⟩
        · obtain ⟨p, hp⟩ := ih.mp h2
          exact ⟨p + 1, by rw [occAt_succ_cons]; exact hp⟩
      · rintro ⟨p, hp⟩
        cases p with
        | zero =>
          obtain ⟨h1, h2⟩ := (occAt_zero_cons₂ c c2 t2).mp hp
          simp [h1, h2]
        | succ q =>
          rw [occAt_succ_cons] at hp
          simp [ih.mpr ⟨q, hp⟩]

theorem occAt_append_left (pre t : List Char) (p : Nat)
    (h : p + 1 < pre.length) :
    occAt (pre ++ t) p = occAt pre p := by
  unfold occAt
  rw [List.getElem?_append_left (by omega), List.getElem?_append_left h]

theorem occAt_append_right (pre t : List Char) (p : Nat)
    (h : pre.length ≤ p) :
    occAt (pre ++ t) p = occAt t (p - pre.length) := by
  unfold occAt
  rw [List.getElem?_append_right h, List.getElem?_append_right (by omega)]
  have harith : p + 1 - pre.length = (p - pre.length) + 1 := by omega
  rw [harith]

theorem length_dropWhile_le (p : Char → Bool) (l : List Char) :
    (l.dropWhile p).length ≤ l.length := by
  induction l with
  | nil => simp
  | cons a t ih =>
    by_cases h : p a <;> simp [List.dropWhile_cons, h] <;> omega

theorem reachLen_append (pre t : List Char)
    (hpre : ∀ c ∈ pre, isLSPS c = false) :
    reachLen (pre ++ t) = pre.length + reachLen t := by
  induction pre with
  | nil => simp
  | cons a pre' ih =>
    have ha : isLSPS a = false := hpre a (by simp)
    have ih' := ih (fun c hc => hpre c (by simp [hc]))
    simp only [List.cons_append, reachLen, List.takeWhile_cons, ha,
      Bool.not_false, if_true, List.length_cons] at ih' ⊢
    omega

theorem lastOccUpTo_mem :
    ∀ (n : Nat) (t : List Char) (k : Nat), lastOccUpTo t n = some k →
      occAt t k = true ∧ k ≤ n := by
  intro n
  induction n with
  | zero =>
    intro t k h
    unfold lastOccUpTo at h
    by_cases h0 : occAt t 0 = true
    · rw [if_pos h0] at h
      cases h
      exact ⟨h0, le_refl 0⟩
    · rw [if_neg h0] at h
      cases h
  | succ m ih =>
    intro t k h
    unfold lastOccUpTo at h
    by_cases h0 : occAt t (m + 1) = true
    · rw [if_pos h0] at h
      cases h
      exact ⟨h0, le_refl _⟩
    · rw [if_neg h0] at h
      obtain ⟨h1, h2⟩ := ih t k h
      exact ⟨h1, Nat.le_succ_of_le h2⟩

theorem lastOccUpTo_max :
    ∀ (n : Nat) (t : List Char) (k : Nat), lastOccUpTo t n = some k →
      ∀ p, p ≤ n → occAt t p = true → p ≤ k := by
  intro n
  induction n with
  | zero =>
    intro t k h p hp _
    omega
  | succ m ih =>
    intro t k h p hp hocc
    unfold lastOccUpTo at h
    by_cases h0 : occAt t (m + 1) = true
    · rw [if_pos h0] at h
      cases h
      exact hp
    · rw [if_neg h0] at h
      rcases Nat.lt_or_ge p (m + 1) with hlt | hge
      · exact ih t k h p (by omega) hocc
      · exfalso
        have : p = m + 1 := by omega
        subst this
        exact h0 hocc

theorem lastOccUpTo_isSome :
    ∀ (n : Nat) (t : List Char) (p : Nat), p ≤ n → occAt t p = true →
      (lastOccUpTo t n).isSome = true := by
  intro n
  induction n with
  | zero =>
    intro t p hp hocc
    have : p = 0 := by omega
    subst this
    unfold lastOccUpTo
    rw [if_pos hocc]
    rfl
  | succ m ih =>
    intro t p hp hocc
    unfold lastOccUpTo
    by_cases h0 : occAt t (m + 1) = true
    · rw [if_pos h0]; rfl
    · rw [if_neg h0]
      rcases Nat.lt_or_ge p (m + 1) with hlt | hge
      · exact ih t p (by omega) hocc
      · exfalso
        have : p = m + 1 := by omega
        subst this
        exact h0 hocc

theorem lastOccUpTo_eq_of :
    ∀ (n : Nat) (t : List Char) (k : Nat), occAt t k = true → k ≤ n →
      (∀ p, p ≤ n → occAt t p = true → p ≤ k) →
      lastOccUpTo t n = some k := by
  intro n
  induction n with
  | zero =>
    intro t k hk hkn _
    have : k = 0 := by omega
    subst this
    unfold lastOccUpTo
    rw [if_pos hk]
  | succ m ih =>
    intro t k hk hkn hmax
    unfold lastOccUpTo
    by_cases h0 : occAt t (m + 1) = true
    · have h1 : m + 1 ≤ k := hmax (m + 1) (le_refl _) h0
      have : k = m + 1 := by omega
      subst this
      rw [if_pos h0]
    · rw [if_neg h0]
      have hkm : k ≤ m := by
        rcases Nat.lt_or_ge k (m + 1) with hlt | hge
        · omega
        · exfalso; have : k = m + 1 := by omega
          subst this; exact h0 hk
      exact ih t k hk hkm (fun p hp hocc => hmax p (by omega) hocc)

theorem blockEnd_mem {t : List Char} {k : Nat} (h : blockEnd t = some k) :
    occAt t k = true ∧ k ≤ reachLen t :=
  lastOccUpTo_mem _ t k h

theorem blockEnd_max {t : List Char} {k : Nat} (h : blockEnd t = some k) :
    ∀ p, p ≤ reachLen t → occAt t p = true → p ≤ k :=
  lastOccUpTo_max _ t k h

theorem blockEnd_isSome {t : List Char} {p : Nat} (hp : p ≤ reachLen t)
    (hocc : occAt t p = true) : (blockEnd t).isSome = true :=
  lastOccUpTo_isSome _ t p hp hocc

theorem blockEnd_eq_of {t : List Char} {k : Nat} (hk : occAt t k = true)
    (hkr : k ≤ reachLen t)
    (hmax : ∀ p, p ≤ reachLen t → occAt t p = true → p ≤ k) :
    blockEnd t = some k :=
  lastOccUpTo_eq_of _ t k hk hkr hmax

theorem blockEnd_append (pre t2 : List Char)
    (hpre : ∀ c ∈ pre, isLSPS c = false) (k : Nat)
    (h : blockEnd (pre ++ t2) = some k) (hk : pre.length ≤ k) :
    blockEnd t2 = some (k - pre.length) := by
  obtain ⟨hocc, hle⟩ := blockEnd_mem h
  rw [occAt_append_right pre t2 k hk] at hocc
  have hreach := reachLen_append pre t2 hpre
  apply blockEnd_eq_of hocc (by omega)
  intro q hq hocc2
  have hsh : occAt (pre ++ t2) (pre.length + q) = true := by
    rw [occAt_append_right pre t2 _ (by omega)]
    simpa using hocc2
  have := blockEnd_max h (pre.length + q) (by omega) hsh
  omega

theorem scrubAuxF_fuelCongr :
    ∀ (f g : Nat) (l : List Char), l.length ≤ f → l.length ≤ g →
      scrubAuxF f l = scrubAuxF g l := by
  intro f
  induction f with
  | zero =>
    intro g l hf _
    have : l = [] := List.length_eq_zero.mp (Nat.le_zero.mp hf)
    subst this
    cases g <;> rfl
  | succ f ih =>
    intro g l hf hg
    cases g with
    | zero =>
      have : l = [] := List.length_eq_zero.mp (Nat.le_zero.mp hg)
      subst this
      rfl
    | succ g =>
      cases l with
      | nil => rfl
      | cons c t =>
        cases t with
        | nil => rfl
        | cons c2 rest =>
          rw [scrubAuxF, scrubAuxF]
          simp only [List.length_cons] at hf hg
          by_cases h1 : c = '/' ∧ c2 = '/'
          · rw [if_pos h1, if_pos h1]
            apply ih
            · have := length_dropWhile_le (fun x => !isRegexLineTerm x) rest
              omega
            · have := length_dropWhile_le (fun x => !isRegexLineTerm x) rest
              omega
          · rw [if_neg h1, if_neg h1]
            by_cases h2 : c = '/' ∧ c2 = '*'
            · rw [if_pos h2, if_pos h2]
              cases hbe : blockEnd rest with
              | some k =>
                apply ih
                · have := List.length_drop (k + 2) rest
                  omega
                · have := List.length_drop (k + 2) rest
                  omega
              | none =>
                have heq := ih g (c2 :: rest) (by simp; omega) (by simp; omega)
                rw [heq]
            · rw [if_neg h2, if_neg h2]
              have heq := ih g (c2 :: rest) (by simp; omega) (by simp; omega)
              rw [heq]

theorem scrubAux_line (rest : List Char) :
    scrubAux ('/' :: '/' :: rest) =
      scrubAux (rest.dropWhile (fun x => !isRegexLineTerm x)) := by
  unfold scrubAux
  rw [show ('/' :: '/' :: rest : List Char).length = rest.length + 2 by simp]
  rw [show scrubAuxF (rest.length + 1 + 1) ('/' :: '/' :: rest) =
      scrubAuxF (rest.length + 1) (rest.dropWhile (fun x => !isRegexLineTerm x))
    by rw [scrubAuxF]; rw [if_pos ⟨rfl, rfl⟩]]
  apply scrubAuxF_fuelCongr
  · have := length_dropWhile_le (fun x => !isRegexLineTerm x) rest
    omega
  · exact le_refl _

theorem scrubAux_block_some (rest : List Char) (k : Nat)
    (hbe : blockEnd rest = some k) :
    scrubAux ('/' :: '*' :: rest) = scrubAux (rest.drop (k + 2)) := by
  unfold scrubAux
  rw [show ('/' :: '*' :: rest : List Char).length = rest.length + 2 by simp]
  rw [show scrubAuxF (rest.length + 1 + 1) ('/' :: '*' :: rest) =
      scrubAuxF (rest.length + 1) (rest.drop (k + 2)) by
    rw [scrubAuxF]
    rw [if_neg (by simp), if_pos ⟨rfl, rfl⟩, hbe]]
  apply scrubAuxF_fuelCongr
  · have := List.length_drop (k + 2) rest
    omega
  · exact le_refl _

theorem scrubAux_other (c c2 : Char) (rest : List Char)
    (h1 : ¬(c = '/' ∧ c2 = '/')) (h2 : ¬(c = '/' ∧ c2 = '*')) :
    scrubAux (c :: c2 :: rest) = c :: scrubAux (c2 :: rest) := by
  unfold scrubAux
  rw [show (c :: c2 :: rest : List Char).length = rest.length + 2 by simp]
  rw [show scrubAuxF (rest.length + 1 + 1) (c :: c2 :: rest) =
      c :: scrubAuxF (rest.length + 1) (c2 :: rest) by
    rw [scrubAuxF]
    rw [if_neg h1, if_neg h2]]
  rw [List.length_cons]

theorem cleanCommentsWsF_fuelCongr :
    ∀ (f g : Nat) (l : List Char), l.length ≤ f → l.length ≤ g →
      cleanCommentsWsF f l = cleanCommentsWsF g l := by
  intro f
  induction f with
  | zero =>
    intro g l hf _
    have : l = [] := List.length_eq_zero.mp (Nat.le_zero.mp hf)
    subst this
    cases g <;> rfl
  | succ f ih =>
    intro g l hf hg
    cases g with
    | zero =>
      have : l = [] := List.length_eq_zero.mp (Nat.le_zero.mp hg)
      subst this
      rfl
    | succ g =>
      cases l with
      | nil => rfl
      | cons c t =>
        cases t with
        | nil => rfl
        | cons c2 rest =>
          rw [cleanCommentsWsF, cleanCommentsWsF]
          simp only [List.length_cons] at hf hg
          by_cases h1 : c = '/' ∧ c2 = '/'
          · rw [if_pos h1, if_pos h1]
            have hd := length_dropWhile_le (fun x => !isRegexLineTerm x) rest
            rw [ih g (rest.dropWhile (fun x => !isRegexLineTerm x))
              (by omega) (by omega)]
          · rw [if_neg h1, if_neg h1]
            by_cases h2 : c = '/' ∧ c2 = '*'
            · rw [if_pos h2, if_pos h2]
              cases hsc : splitClose rest with
              | some pr =>
                obtain ⟨body, after⟩ := pr
                have happ := splitClose_append rest body after (by rw [hsc])
                have hlen : rest.length = body.length + 2 + after.length := by
                  rw [happ]; simp; omega
                show ((body.all fun x => !isLSPS x) && cleanCommentsWsF f after) =
                  ((body.all fun x => !isLSPS x) && cleanCommentsWsF g after)
                rw [ih g after (by omega) (by omega)]
              | none => rfl
            · rw [if_neg h2, if_neg h2]
              rw [ih g (c2 :: rest) (by simp; omega) (by simp; omega)]

theorem drop_append_ge (l1 l2 : List Char) :
    ∀ n, l1.length ≤ n → (l1 ++ l2).drop n = l2.drop (n - l1.length) := by
  induction l1 with
  | nil => intro n _; simp
  | cons a t ih =>
    intro n hn
    cases n with
    | zero => simp at hn
    | succ m =>
      simp only [List.cons_append, List.drop_succ_cons, List.length_cons]
      rw [ih m (by simpa using hn)]
      congr 1
      omega

theorem dropWhile_head_false (p : Char → Bool) :
    ∀ (l : List Char) (c : Char) (t : List Char),
      l.dropWhile p = c :: t → p c = false := by
  intro l
  induction l with
  | nil => intro c t h; simp [List.dropWhile] at h
  | cons a l' ih =>
    intro c t h
    rw [List.dropWhile_cons] at h
    by_cases ha : p a = true
    · rw [if_pos ha] at h
      exact ih c t h
    · rw [if_neg ha] at h
      cases h
      exact Bool.not_eq_true _ ▸ ha

theorem occAt_fst {t : List Char} {p : Nat} (h : occAt t p = true) :
    t[p]? = some '*' := by
  simp only [occAt, Bool.and_eq_true, beq_iff_eq] at h
  exact h.1

theorem occAt_snd {t : List Char} {p : Nat} (h : occAt t p = true) :
    t[p + 1]? = some '/' := by
  simp only [occAt, Bool.and_eq_true, beq_iff_eq] at h
  exact h.2

theorem occAt_closer (body after : List Char) :
    occAt (body ++ '*' :: '/' :: after) body.length = true := by
  rw [occAt_append_right body _ _ (le_refl _)]
  simp only [Nat.sub_self]
  exact (occAt_zero_cons₂ '*' '/' after).mpr ⟨rfl, rfl⟩

theorem isLSPS_of_term (c : Char) (h : isLSPS c = true) :
    isRegexLineTerm c = true := by
  simp only [isLSPS, Bool.or_eq_true, beq_iff_eq] at h
  rcases h with h1 | h1 <;> subst h1 <;> rfl

theorem cleanCW_line (rest : List Char) :
    cleanCommentsWs ('/' :: '/' :: rest) =
      (!containsStarSlash (rest.takeWhile (fun x => !isRegexLineTerm x)) &&
       cleanCommentsWs (rest.dropWhile (fun x => !isRegexLineTerm x))) := by
  unfold cleanCommentsWs
  rw [show ('/' :: '/' :: rest : List Char).length = rest.length + 1 + 1 by simp]
  rw [cleanCommentsWsF]
  rw [if_pos ⟨rfl, rfl⟩]
  congr 1
  apply cleanCommentsWsF_fuelCongr
  · have := length_dropWhile_le (fun x => !isRegexLineTerm x) rest
    omega
  · exact le_refl _

theorem cleanCW_block (rest body after : List Char)
    (hsc : splitClose rest = some (body, after)) :
    cleanCommentsWs ('/' :: '*' :: rest) =
      (body.all (fun x => !isLSPS x) && cleanCommentsWs after) := by
  unfold cleanCommentsWs
  rw [show ('/' :: '*' :: rest : List Char).length = rest.length + 1 + 1 by simp]
  rw [cleanCommentsWsF]
  rw [if_neg (by simp), if_pos ⟨rfl, rfl⟩, hsc]
  have happ := splitClose_append rest body after hsc
  have hlen : rest.length = body.length + 2 + after.length := by
    rw [happ]; simp; omega
  show ((body.all fun x => !isLSPS x) && cleanCommentsWsF (rest.length + 1) after) =
    ((body.all fun x => !isLSPS x) && cleanCommentsWsF after.length after)
  congr 1
  apply cleanCommentsWsF_fuelCongr
  · omega
  · exact le_refl _

theorem cleanCW_other (c c2 : Char) (rest : List Char)
    (h1 : ¬(c = '/' ∧ c2 = '/')) (h2 : ¬(c = '/' ∧ c2 = '*')) :
    cleanCommentsWs (c :: c2 :: rest) =
      (isJsWs c && cleanCommentsWs (c2 :: rest)) := by
  unfold cleanCommentsWs
  rw [show (c :: c2 :: rest : List Char).length = rest.length + 1 + 1 by simp]
  rw [cleanCommentsWsF]
  rw [if_neg h1, if_neg h2]
  rw [List.length_cons]

/-- Classification of the greedy block match against the first-close
structure: the chosen `*/` is either the comment's own closer, or lies
beyond it, in which case it is also the greedy choice inside the tail. -/
theorem clean_block_occ (body after : List Char) (k : Nat)
    (hbody : ∀ c ∈ body, isLSPS c = false)
    (h : blockEnd (body ++ '*' :: '/' :: after) = some k)
    (hmin : body.length ≤ k) :
    k = body.length ∨
      (body.length + 2 ≤ k ∧ blockEnd after = some (k - (body.length + 2))) := by
  rcases Nat.eq_or_lt_of_le hmin with heq | hlt
  · exact Or.inl heq.symm
  · right
    have hocc := (blockEnd_mem h).1
    have hk2 : body.length + 2 ≤ k := by
      rcases Nat.eq_or_lt_of_le hlt with heq1 | hlt1
      · exfalso
        have hfst := occAt_fst hocc
        rw [← heq1] at hfst
        rw [List.getElem?_append_right (by omega)] at hfst
        have : body.length + 1 - body.length = 1 := by omega
        rw [this] at hfst
        simp at hfst
      · omega
    have hassoc : body ++ '*' :: '/' :: after =
        (body ++ ['*', '/']) ++ after := by simp
    refine ⟨hk2, ?_⟩
    have hpre : ∀ c ∈ body ++ ['*', '/'], isLSPS c = false := by
      intro c hc
      rcases List.mem_append.mp hc with hc1 | hc1
      · exact hbody c hc1
      · rcases List.mem_cons.mp hc1 with hc2 | hc2
        · subst hc2; rfl
        · have : c = '/' := by simpa using hc2
          subst this; rfl
    have := blockEnd_append (body ++ ['*', '/']) after hpre k
      (by rw [← hassoc]; exact h) (by simp; omega)
    simpa [Nat.add_comm] using this

theorem cleanCW_block_none (rest : List Char)
    (hsc : splitClose rest = none) :
    cleanCommentsWs ('/' :: '*' :: rest) = false := by
  unfold cleanCommentsWs
  rw [show ('/' :: '*' :: rest : List Char).length = rest.length + 1 + 1 by simp]
  rw [cleanCommentsWsF]
  rw [if_neg (by simp), if_pos ⟨rfl, rfl⟩, hsc]

theorem lastOccUpTo_none_of (t : List Char)
    (h : ∀ p, occAt t p = false) : ∀ n, lastOccUpTo t n = none := by
  intro n
  induction n with
  | zero => unfold lastOccUpTo; simp [h 0]
  | succ m ih => unfold lastOccUpTo; simp [h (m + 1), ih]

theorem blockEnd_singleton (c : Char) : blockEnd [c] = none :=
  lastOccUpTo_none_of [c] (occAt_singleton c) _

theorem blockEnd_nil : blockEnd ([] : List Char) = none :=
  lastOccUpTo_none_of [] occAt_nil _

/-- If a clean comment-only text has a greedy block match at `k`, the text
after the match is again clean: the match always ends exactly at the
closer of some block comment of the text. -/
theorem cleanDrop :
    ∀ (n : Nat) (t : List Char), t.length ≤ n → cleanCommentsWs t = true →
      ∀ k, blockEnd t = some k → cleanCommentsWs (t.drop (k + 2)) = true := by
  intro n
  induction n with
  | zero =>
    intro t hlen _ k hbe
    have : t = [] := List.length_eq_zero.mp (Nat.le_zero.mp hlen)
    subst this
    rw [blockEnd_nil] at hbe
    cases hbe
  | succ n ih =>
    intro t hlen hclean k hbe
    match t, hlen, hclean, hbe with
    | [], _, _, hbe =>
      rw [blockEnd_nil] at hbe
      cases hbe
    | [c], _, _, hbe =>
      rw [blockEnd_singleton] at hbe
      cases hbe
    | c :: c2 :: rest, hlen, hclean, hbe =>
      simp only [List.length_cons] at hlen
      have hocc := (blockEnd_mem hbe).1
      by_cases h1 : c = '/' ∧ c2 = '/'
      · -- line comment at the front
        obtain ⟨hc, hc2⟩ := h1
        subst hc; subst hc2
        rw [cleanCW_line] at hclean
        obtain ⟨hnss, hct'⟩ := Bool.and_eq_true .. ▸ hclean
        have hsplit := List.takeWhile_append_dropWhile
          (p := fun x => !isRegexLineTerm x) (l := rest)
        set L := rest.takeWhile (fun x => !isRegexLineTerm x) with hL
        set t' := rest.dropWhile (fun x => !isRegexLineTerm x) with ht'
        have hLterm : ∀ x ∈ L, isRegexLineTerm x = false := by
          intro x hx
          have := List.mem_takeWhile_imp hx
          simpa using this
        have hLlsps : ∀ x ∈ L, isLSPS x = false := by
          intro x hx
          cases hls : isLSPS x with
          | false => rfl
          | true => exact absurd (isLSPS_of_term x hls) (by simp [hLterm x hx])
        obtain _ | k := k
        · exact absurd (occAt_fst hocc) (by simp)
        obtain _ | q := k
        · exact absurd (occAt_fst hocc) (by simp)
        rw [occAt_succ_cons, occAt_succ_cons] at hocc
        -- the occurrence cannot lie inside the line-comment body
        have hqL : L.length ≤ q := by
          by_contra hqlt
          push_neg at hqlt
          rcases Nat.lt_or_ge (q + 1) L.length with hq1 | hq1
          · have : occAt L q = true := by
              rw [← occAt_append_left L t' q hq1, hsplit]
              exact hocc
            have := (containsStarSlash_exists L).mpr ⟨q, this⟩
            simp [this] at hnss
          · have hq1e : q + 1 = L.length := by omega
            have hsnd := occAt_snd hocc
            rw [← hsplit] at hsnd
            rw [List.getElem?_append_right (by omega)] at hsnd
            rw [show q + 1 - L.length = 0 by omega] at hsnd
            cases ht'e : t' with
            | nil => rw [ht'e] at hsnd; simp at hsnd
            | cons c0 tt =>
              rw [ht'e] at hsnd
              simp only [List.getElem?_cons_zero, Option.some.injEq] at hsnd
              subst hsnd
              have hh := dropWhile_head_false (fun x => !isRegexLineTerm x)
                rest '/' tt (ht'.symm.trans ht'e)
              exact absurd hh (by decide)
        -- transfer the greedy match into the text after the line comment
        have hassoc : ('/' :: '/' :: rest : List Char) =
            ('/' :: '/' :: L) ++ t' := by
          simp [hsplit]
        have hpre : ∀ x ∈ ('/' :: '/' :: L : List Char), isLSPS x = false := by
          intro x hx
          rcases List.mem_cons.mp hx with hx1 | hx1
          · subst hx1; rfl
          rcases List.mem_cons.mp hx1 with hx2 | hx2
          · subst hx2; rfl
          · exact hLlsps x hx2
        have hbe' := blockEnd_append ('/' :: '/' :: L) t' hpre (q + 2)
          (by rw [← hassoc]; exact hbe) (by simp; omega)
        have hlen' : t'.length ≤ n := by
          have h1 := length_dropWhile_le (fun x => !isRegexLineTerm x) rest
          rw [← ht'] at h1
          omega
        have hrec := ih t' hlen' hct' _ hbe'
        have hdrop : (('/' : Char) :: '/' :: rest).drop (q + 2 + 2) =
            t'.drop (q + 2 + 2 - ('/' :: '/' :: L : List Char).length) := by
          rw [hassoc]
          exact drop_append_ge _ _ _ (by simp; omega)
        rw [hdrop]
        rw [show q + 2 + 2 - ('/' :: '/' :: L : List Char).length =
          q + 2 - (L.length + 2) + 2 by simp; omega]
        exact hrec
      · by_cases h2 : c = '/' ∧ c2 = '*'
        · -- block comment at the front
          obtain ⟨hc, hc2⟩ := h2
          subst hc; subst hc2
          cases hsc : splitClose rest with
          | none => rw [cleanCW_block_none rest hsc] at hclean; cases hclean
          | some pr =>
            obtain ⟨body, after⟩ := pr
            rw [cleanCW_block rest body after hsc] at hclean
            obtain ⟨hball, hcafter⟩ := Bool.and_eq_true .. ▸ hclean
            have hbodyl : ∀ x ∈ body, isLSPS x = false := by
              intro x hx
              have := (List.all_eq_true.mp hball) x hx
              simpa using this
            have happ := splitClose_append rest body after hsc
            -- the closer of the front comment, in coordinates of t
            have hocc_closer : occAt ('/' :: '*' :: rest) (body.length + 2) = true := by
              rw [show body.length + 2 = body.length + 1 + 1 by omega,
                occAt_succ_cons, occAt_succ_cons, happ]
              exact occAt_closer body after
            have hassoc : ('/' :: '*' :: rest : List Char) =
                (['/', '*'] ++ body ++ ['*', '/']) ++ after := by
              simp [happ]
            have hpre : ∀ x ∈ (['/', '*'] ++ body ++ ['*', '/'] : List Char),
                isLSPS x = false := by
              intro x hx
              simp only [List.append_assoc, List.mem_append, List.mem_cons,
                List.mem_singleton] at hx
              rcases hx with (hx1 | hx1) | hx1 | (hx1 | hx1 | hx1)
              · subst hx1; rfl
              · rcases hx1 with hx2 | hx2
                · subst hx2; rfl
                · cases hx2
              · exact hbodyl x hx1
              · subst hx1; rfl
              · subst hx1; rfl
              · cases hx1
            have hreach : reachLen ('/' :: '*' :: rest) =
                (body.length + 4) + reachLen after := by
              rw [hassoc, reachLen_append _ _ hpre]
              simp
            have hk_ge : body.length + 2 ≤ k := by
              apply blockEnd_max hbe _ (by omega) hocc_closer
            -- transfer into rest
            have hbe_rest := blockEnd_append ['/', '*'] rest
              (by intro x hx; rcases List.mem_cons.mp hx with h | h
                  · subst h; rfl
                  · rcases List.mem_cons.mp h with h | h
                    · subst h; rfl
                    · cases h)
              k hbe (by simp; omega)
            simp only [List.length_cons, List.length_nil] at hbe_rest
            rw [happ] at hbe_rest
            rcases clean_block_occ body after (k - 2) hbodyl hbe_rest
              (by omega) with hcase | ⟨hge, hbe_after⟩
            · -- the greedy match is the closer itself
              have hke : k = body.length + 2 := by omega
              subst hke
              have hdrop : (('/' : Char) :: '*' :: rest).drop
                  (body.length + 2 + 2) = after := by
                rw [hassoc]
                rw [drop_append_ge _ _ _ (by simp)]
                rw [show body.length + 2 + 2 -
                  (['/', '*'] ++ body ++ ['*', '/'] : List Char).length = 0 by
                    simp]
                exact List.drop_zero after
              rw [hdrop]
              exact hcafter
            · -- the greedy match lies beyond: recurse into the tail
              have hlen' : after.length ≤ n := by
                have : rest.length = body.length + 2 + after.length := by
                  rw [happ]; simp; omega
                omega
              have hrec := ih after hlen' hcafter _ hbe_after
              have hdrop : (('/' : Char) :: '*' :: rest).drop (k + 2) =
                  after.drop (k - 2 - (body.length + 2) + 2) := by
                rw [hassoc]
                rw [drop_append_ge _ _ _ (by simp; omega)]
                congr 1
                simp
                omega
              rw [hdrop]
              exact hrec
        · -- plain character at the front
          rw [cleanCW_other c c2 rest h1 h2] at hclean
          obtain ⟨hws, hcl2⟩ := Bool.and_eq_true .. ▸ hclean
          have hknz : k ≠ 0 := by
            intro hk0
            subst hk0
            have := occAt_fst hocc
            simp only [List.getElem?_cons_zero, Option.some.injEq] at this
            subst this
            simp [isJsWs] at hws
          by_cases hls : isLSPS c = true
          · exfalso
            have : reachLen (c :: c2 :: rest) = 0 := by
              unfold reachLen
              rw [List.takeWhile_cons, hls]
              simp
            have := (blockEnd_mem hbe).2
            omega
          · have hbe' := blockEnd_append [c] (c2 :: rest)
              (by intro x hx
                  rcases List.mem_cons.mp hx with h | h
                  · subst h; simpa using hls
                  · cases h)
              k hbe (by simp; omega)
            simp only [List.length_cons, List.length_nil] at hbe'
            have hrec := ih (c2 :: rest) (by simpa using hlen) hcl2 _ hbe'
            have : (c :: c2 :: rest).drop (k + 2) =
                (c2 :: rest).drop (k - 1 + 2) := by
              rw [show k + 2 = (k - 1 + 2) + 1 by omega]
              rfl
            rw [this]
            exact hrec

/-- On a clean comment-only text, the global replacement leaves only
whitespace characters behind. -/
theorem clean_scrub_ws :
    ∀ (n : Nat) (l : List Char), l.length ≤ n → cleanCommentsWs l = true →
      (scrubAux l).all isJsWs = true := by
  intro n
  induction n with
  | zero =>
    intro l hlen _
    have : l = [] := List.length_eq_zero.mp (Nat.le_zero.mp hlen)
    subst this
    rfl
  | succ n ih =>
    intro l hlen hclean
    match l, hlen, hclean with
    | [], _, _ => rfl
    | [c], _, hclean =>
      have : cleanCommentsWs [c] = isJsWs c := rfl
      rw [this] at hclean
      have : scrubAux [c] = [c] := rfl
      rw [this]
      simp [hclean]
    | c :: c2 :: rest, hlen, hclean =>
      simp only [List.length_cons] at hlen
      by_cases h1 : c = '/' ∧ c2 = '/'
      · obtain ⟨hc, hc2⟩ := h1
        subst hc; subst hc2
        rw [scrubAux_line]
        rw [cleanCW_line] at hclean
        obtain ⟨_, hct'⟩ := Bool.and_eq_true .. ▸ hclean
        have hd := length_dropWhile_le (fun x => !isRegexLineTerm x) rest
        exact ih _ (by omega) hct'
      · by_cases h2 : c = '/' ∧ c2 = '*'
        · obtain ⟨hc, hc2⟩ := h2
          subst hc; subst hc2
          cases hsc : splitClose rest with
          | none => rw [cleanCW_block_none rest hsc] at hclean; cases hclean
          | some pr =>
            obtain ⟨body, after⟩ := pr
            rw [cleanCW_block rest body after hsc] at hclean
            obtain ⟨hball, hcafter⟩ := Bool.and_eq_true .. ▸ hclean
            have hbodyl : ∀ x ∈ body, isLSPS x = false := by
              intro x hx
              have := (List.all_eq_true.mp hball) x hx
              simpa using this
            have happ := splitClose_append rest body after hsc
            have hlen2 : rest.length = body.length + 2 + after.length := by
              rw [happ]; simp; omega
            have hpre2 : ∀ x ∈ (body ++ ['*', '/'] : List Char),
                isLSPS x = false := by
              intro x hx
              rcases List.mem_append.mp hx with hx1 | hx1
              · exact hbodyl x hx1
              · rcases List.mem_cons.mp hx1 with hx2 | hx2
                · subst hx2; rfl
                · have : x = '/' := by simpa using hx2
                  subst this; rfl
            have hassoc2 : rest = (body ++ ['*', '/']) ++ after := by
              rw [happ]; simp
            have hreach : body.length ≤ reachLen rest := by
              rw [hassoc2, reachLen_append _ _ hpre2]
              simp
              omega
            have hocc0 : occAt rest body.length = true := by
              rw [happ]; exact occAt_closer body after
            have hex := blockEnd_isSome hreach hocc0
            obtain ⟨k, hbe⟩ := Option.isSome_iff_exists.mp hex
            have hmin : body.length ≤ k := blockEnd_max hbe _ hreach hocc0
            rw [scrubAux_block_some rest k hbe]
            rcases clean_block_occ body after k hbodyl (happ ▸ hbe) hmin with
              hcase | ⟨hge, hbe_after⟩
            · subst hcase
              have hdrop : rest.drop (body.length + 2) = after := by
                rw [hassoc2, drop_append_ge _ _ _ (by simp)]
                rw [show body.length + 2 -
                  (body ++ ['*', '/'] : List Char).length = 0 by simp]
                exact List.drop_zero after
              rw [hdrop]
              exact ih after (by omega) hcafter
            · have hclean2 := cleanDrop after.length after (le_refl _)
                hcafter _ hbe_after
              have hdrop : rest.drop (k + 2) =
                  after.drop (k - (body.length + 2) + 2) := by
                rw [hassoc2, drop_append_ge _ _ _ (by simp; omega)]
                congr 1
                simp
                omega
              rw [hdrop]
              have hld : (after.drop (k - (body.length + 2) + 2)).length ≤
                  after.length := by
                rw [List.length_drop]
                omega
              exact ih _ (by omega) hclean2
        · rw [scrubAux_other c c2 rest h1 h2]
          rw [cleanCW_other c c2 rest h1 h2] at hclean
          obtain ⟨hws, hcl2⟩ := Bool.and_eq_true .. ▸ hclean
          have := ih (c2 :: rest) (by simpa using hlen) hcl2
          simp [hws, this]

theorem jsTrim_of_all_ws (l : List Char) (h : l.all isJsWs = true) :
    jsTrim l = [] := by
  unfold jsTrim
  have h1 : l.dropWhile isJsWs = [] :=
    List.dropWhile_eq_nil_iff.mpr (fun x hx => List.all_eq_true.mp h x hx)
  rw [h1]
  rfl

/-- C9 (amended): an undefined script, an empty script, and every script
consisting only of whitespace, line comments whose bodies do not contain
the sequence `*/`, and block comments whose bodies do not contain
U+2028/U+2029, evaluate to true without building or invoking the dynamic
script function — and hence without calling any registered script
function or touching the variable store. -/
theorem runScriptRaw_comment_only (evalJs : Bool → List Char → Variable)
    (rtns sh : Bool) (l : List Char) (hc : cleanCommentsWs l = true) :
    runScriptRaw evalJs none rtns sh = ⟨.vBool true, false⟩ ∧
    runScriptRaw evalJs (some l) rtns sh = ⟨.vBool true, false⟩ := by
  refine ⟨rfl, ?_⟩
  by_cases hnil : l = []
  · subst hnil; rfl
  · have hscrub : scrubComments l = [] :=
      jsTrim_of_all_ws _ (clean_scrub_ws l.length l (le_refl _) hc)
    show (if l = [] then (⟨.vBool true, false⟩ : RawOutcome)
      else if scrubComments l = [] then ⟨.vBool true, false⟩
      else ⟨evalJs rtns (scrubComments l), true⟩) = ⟨.vBool true, false⟩
    rw [if_neg hnil, if_pos hscrub]

/-- Witness for `runScriptRaw_comment_only` at a concrete comment-only
script. -/
theorem runScriptRaw_comment_only_witness :
    cleanCommentsWs ("/* a */\n// b".toList) = true ∧
    runScriptRaw (fun _ _ => .vUndef) (some ("/* a */\n// b".toList))
      true false = ⟨.vBool true, false⟩ :=
  ⟨by decide,
   (runScriptRaw_comment_only (fun _ _ => .vUndef) true false
     ("/* a */\n// b".toList) (by decide)).2⟩

/-- C9 (counterexample): `c9Script` consists only of a block comment,
whitespace and a line comment, yet scrubbing leaves the text `y` behind
(the greedy block-comment alternative of the regex swallows up to the
`*/` inside the line comment), so evaluation builds and invokes the
dynamic function instead of returning true. -/
theorem runScriptRaw_c9_counterexample :
    onlyCommentsWs c9Script = true ∧
    scrubComments c9Script = ['y'] ∧
    runScriptRaw (fun _ _ => .vUndef) (some c9Script) true false =
      ⟨.vUndef, true⟩ := by
  refine ⟨by decide, by decide, by decide⟩

/-- `refreshBranches` only rewrites the branch cache, the pages and the
terminal branch: position, store reference, visits, turn, shadowing flag
and merge-page list all survive unchanged. -/
theorem mergePagesLoop_fields (db : DB) (config : GameIterationConfig)
    (fuel : Nat) :
    ∀ (pages : List MergePage) (h : Heap) (r : GameFlowState)
      (h2 : Heap) (r2 : GameFlowState),
      mergePagesLoop db config fuel h r pages = some (h2, r2) →
      r2.turn = r.turn ∧ r2.id = r.id ∧ r2.last = r.last ∧
      r2.varsRef = r.varsRef ∧ r2.visits = r.visits ∧
      r2.shadowing = r.shadowing ∧ r2.mergePages = r.mergePages ∧
      r2.terminalBranch = r.terminalBranch := by
  intro pages
  induction pages with
  | nil =>
    intro h r h2 r2 hml
    unfold mergePagesLoop at hml
    simp only [Option.some.injEq, Prod.mk.injEq] at hml
    rw [← hml.2]
    exact ⟨rfl, rfl, rfl, rfl, rfl, rfl, rfl, rfl⟩
  | cons page rest ih =>
    intro h r h2 r2 hml
    unfold mergePagesLoop at hml
    cases hcg : collectGo db config r.visits fuel h
        (.entry ⟨some page.id, page.last, r.varsRef, r.shadowing⟩
          none 0 (-1) none []) with
    | none => rw [hcg] at hml; cases hml
    | some pr =>
      rw [hcg] at hml
      have := ih _ _ _ _ hml
      cases hcp : pr.2.pages <;> cases hcb : pr.2.branches <;>
        simp only [hcp, hcb] at this <;> exact this

theorem refreshBranches_fields (db : DB) (config : GameIterationConfig)
    (fuel : Nat) (h : Heap) (state : GameFlowState) (h2 : Heap)
    (s2 : GameFlowState)
    (hr : refreshBranches db config fuel h state = some (h2, s2)) :
    s2.turn = state.turn ∧ s2.id = state.id ∧ s2.last = state.last ∧
    s2.varsRef = state.varsRef ∧ s2.visits = state.visits ∧
    s2.shadowing = state.shadowing ∧ s2.mergePages = state.mergePages := by
  unfold refreshBranches at hr
  cases hcg : collectGo db config state.visits fuel h
      (.entry ⟨state.id, state.last, state.varsRef, true⟩ none 0 (-1) none []) with
  | none => rw [hcg] at hr; cases hr
  | some pr =>
    rw [hcg] at hr
    cases hid : state.id with
    | none =>
      rw [hid] at hr
      have := mergePagesLoop_fields db config fuel state.mergePages _ _ _ _ hr
      simp only [applyCR] at this
      exact ⟨this.1, this.2.1, this.2.2.1, this.2.2.2.1,
        this.2.2.2.2.1, this.2.2.2.2.2.1, this.2.2.2.2.2.2.1⟩
    | some sid =>
      rw [hid] at hr
      have := mergePagesLoop_fields db config fuel state.mergePages _ _ _ _ hr
      simp only [applyCR] at this
      exact ⟨this.1, this.2.1, this.2.2.1, this.2.2.2.1,
        this.2.2.2.2.1, this.2.2.2.2.2.1, this.2.2.2.2.2.2.1⟩

/-- C5: advancing along a branch index that matches none of the state's
cached branches returns the input state unchanged, with no side effect on
the heap of variable stores — a no-op, not an error.  This also covers any
index when the branch cache is empty, and states with no position. -/
theorem advance_missing_branch_noop (db : DB) (config : GameIterationConfig)
    (cfuel afuel : Nat) (h : Heap) (state : GameFlowState) (i : Int)
    (hmiss : state.branches.find? (fun b => b.index == i) = none) :
    advanceGameFlowState db config cfuel (afuel + 1) h state i =
      some (h, state, none) := by
  unfold advanceGameFlowState
  cases hid : state.id with
  | none => rfl
  | some sid => rw [hmiss]

/-- Witness for `advance_missing_branch_noop`: index 7 matches none of the
single cached branch (index 0). -/
theorem advance_missing_branch_noop_witness :
    advanceGameFlowState dbChain cfgPlain 10 1 heap1 stateAtA 7 =
      some (heap1, stateAtA, none) :=
  advance_missing_branch_noop dbChain cfgPlain 10 0 heap1 stateAtA 7 (by decide)

/-- C3: `completeFlow` clears the position without side effects (same heap,
variables and visits untouched) when branches remain or no fallback
terminal branch exists; otherwise it executes every node of the fallback
terminal branch non-speculatively (committing the resulting variable store
and visit set into the returned state) and clears the position. -/
theorem completeFlow_spec (db : DB) (h : Heap) (state : GameFlowState) :
    (state.branches ≠ [] ∨ state.terminalBranch = none →
      completeFlow db h state = some (h, clearPosition state)) ∧
    (∀ tb, state.branches = [] → state.terminalBranch = some tb →
      completeFlow db h state =
        (executeFlowBranch db h state tb).map
          (fun r => (r.1, { clearPosition state with
            varsRef := r.2.1, visits := r.2.2.1 }))) := by
  constructor
  · intro hcase
    cases htb : state.terminalBranch with
    | none => unfold completeFlow; rw [htb]
    | some tb0 =>
      rcases hcase with hbr | hnone
      · have hlen : state.branches.length > 0 := by
          cases hb : state.branches with
          | nil => exact absurd hb hbr
          | cons a t => simp [hb]
        simp only [completeFlow, htb]
        rw [if_pos hlen]
      · rw [htb] at hnone; cases hnone
  · intro tb hbr htb
    have hlen : ¬ state.branches.length > 0 := by simp [hbr]
    simp only [completeFlow, htb]
    rw [if_neg hlen]
    cases hex : executeFlowBranch db h state tb with
    | none => rfl
    | some r =>
      obtain ⟨h1, nr, vs, rest⟩ := r
      rfl

/-- Witness for `completeFlow_spec`, covering both cases: a state with
cached branches is cleared without running anything, and a state with no
branches but a fallback terminal branch commits that branch's execution. -/
theorem completeFlow_spec_witness :
    completeFlow dbChain heap1 stateAtA = some (heap1, clearPosition stateAtA) ∧
    completeFlow dbChain heap1 stateFallback =
      (executeFlowBranch dbChain heap1 stateFallback ⟨0, ["C"], "C"⟩).map
        (fun r => (r.1, { clearPosition stateFallback with
          varsRef := r.2.1, visits := r.2.2.1 })) :=
  ⟨(completeFlow_spec dbChain heap1 stateAtA).1 (Or.inl (by decide)),
   (completeFlow_spec dbChain heap1 stateFallback).2 ⟨0, ["C"], "C"⟩ rfl rfl⟩

/-- C7 (counterexample): with a custom stop policy classifying the
arrived-at node `B` as `Advance`, one call to `advanceGameFlowState`
performs a skip-through advance and increments the turn counter twice,
not once. -/
theorem advance_c7_counterexample :
    stateAtA.turn = 0 ∧
    (iterResState (advanceGameFlowState dbChain cfgAdvanceAtB 8 3 heap1
        stateAtA 0)).map (fun s => s.turn) = some 2 := by
  exact ⟨rfl, by decide⟩

/-- C7 (amended): when the iteration config carries no custom stop handler
(so no `Advance` skip-through can trigger), advancing along a cached
branch increments the turn counter exactly once. -/
theorem advance_turn_plus_one (db : DB) (config : GameIterationConfig)
    (hnh : config.customStopHandler = none)
    (cfuel afuel : Nat) (h : Heap) (state : GameFlowState) (i : Int)
    (sid : NodeId) (hid : state.id = some sid)
    (b : FlowBranch)
    (hfind : state.branches.find? (fun x => x.index == i) = some b)
    (h2 : Heap) (s2 : GameFlowState) (n2 : Option FlowNode)
    (hadv : advanceGameFlowState db config cfuel (afuel + 1) h state i =
      some (h2, s2, n2)) :
    s2.turn = state.turn + 1 := by
  simp only [advanceGameFlowState, hid, hfind] at hadv
  cases hex : executeFlowBranch db h state b with
  | none => simp only [hex] at hadv; exact Option.noConfusion hadv
  | some r =>
    simp only [hex] at hadv
    obtain ⟨h1, varsRef, visits1, steps⟩ := r
    cases hlast : steps.getLast? with
    | none => simp only [hlast] at hadv; exact Option.noConfusion hadv
    | some curr =>
      simp only [hlast] at hadv
      cases hrf : refreshBranches db config cfuel h1
          { id := some curr.nid,
            last := if 1 < b.path.length then
                (steps.get? (b.path.length - 2)).map (fun n => n.nid)
              else (db.getObject sid).map (fun n => n.nid),
            varsRef := varsRef, shadowing := false, pages := [curr.nid],
            mergePages := [], branches := [], visits := visits1,
            turn := state.turn + 1, terminalBranch := none } with
      | none => simp only [hrf] at hadv; exact Option.noConfusion hadv
      | some pr =>
        obtain ⟨h3, ns2⟩ := pr
        have hturn := (refreshBranches_fields db config cfuel h1 _ h3 ns2 hrf).1
        simp only [hrf, hnh, Bool.and_false, Bool.false_eq_true, if_false,
          Option.some.injEq, Prod.mk.injEq] at hadv
        rw [← hadv.2.1]
        exact hturn

/-- Witness for `advance_turn_plus_one` on the concrete chain database. -/
theorem advance_turn_plus_one_witness :
    (iterResState (advanceGameFlowState dbChain cfgPlain 8 1 heap1
        stateAtA 0)).map (fun s => s.turn) = some (stateAtA.turn + 1) := by
  cases hadv : advanceGameFlowState dbChain cfgPlain 8 1 heap1 stateAtA 0 with
  | none =>
    have hs : (advanceGameFlowState dbChain cfgPlain 8 1 heap1
        stateAtA 0).isSome = true := by decide
    rw [hadv] at hs
    cases hs
  | some r =>
    obtain ⟨h2, s2, n2⟩ := r
    have := advance_turn_plus_one dbChain cfgPlain rfl 8 0 heap1 stateAtA 0
      "A" rfl ⟨0, ["B"], "A"⟩ (by decide) h2 s2 n2 hadv
    simp [iterResState, hadv, this]

/-- C2 (counterexample): a state whose branch cache carries a duplicated
index is returned unchanged — duplicated indices included — by an
`advanceGameFlowState` call whose branch index matches nothing, so not
every state returned by the four operations has pairwise distinct branch
indices. -/
theorem advance_dup_idx_counterexample :
    advanceGameFlowState dbEmpty cfgPlain 1 1 heap1 stateDupIdx 5 =
      some (heap1, stateDupIdx, none) ∧
    ¬ NoDupIdx stateDupIdx.branches := by
  constructor
  · rfl
  · intro hnd
    simp [NoDupIdx, stateDupIdx] at hnd

theorem orKey_getD {α : Type} (a b : Option (List α)) :
    (orKey a b).getD [] = a.getD [] ++ b.getD [] := by
  cases a <;> cases b <;> simp [orKey]

theorem mergeCR_branches (a b : CollectionResult) :
    (mergeCR a b).branches = orKey a.branches b.branches := rfl

theorem sorted_le_getLast :
    ∀ (l : List FlowBranch) (lb : FlowBranch), IdxSorted l →
      l.getLast? = some lb → ∀ x ∈ l, x.index ≤ lb.index := by
  intro l
  induction l with
  | nil => intro lb _ hl; cases hl
  | cons a t ih =>
    intro lb hs hl x hx
    cases t with
    | nil =>
      simp only [List.getLast?_singleton, Option.some.injEq] at hl
      subst hl
      rcases List.mem_singleton.mp hx with h
      subst h
      exact le_refl _
    | cons a2 t2 =>
      have hl2 : (a2 :: t2).getLast? = some lb := by
        rw [← hl]
        rfl
      have hs2 : IdxSorted (a2 :: t2) := (List.chain'_cons.mp hs).2
      have hrel : a.index < a2.index := (List.chain'_cons.mp hs).1
      rcases List.mem_cons.mp hx with hx1 | hx1
      · subst hx1
        have := ih lb hs2 hl2 a2 (by simp)
        omega
      · exact ih lb hs2 hl2 x hx1

theorem sorted_append (l1 l2 : List FlowBranch) (h1 : IdxSorted l1)
    (h2 : IdxSorted l2)
    (hlt : ∀ x ∈ l1, ∀ y ∈ l2, x.index < y.index) :
    IdxSorted (l1 ++ l2) := by
  apply List.Chain'.append h1 h2
  intro x hx y hy
  exact hlt x (List.mem_of_mem_getLast? hx) y (List.mem_of_mem_head? hy)

theorem sorted_nodup (l : List FlowBranch) (h : IdxSorted l) : NoDupIdx l := by
  unfold NoDupIdx
  have hc : List.Chain' (fun a b : Int => a < b)
      (l.map (fun b => b.index)) := by
    rw [List.chain'_map]
    exact h
  have hp := List.chain'_iff_pairwise.mp hc
  exact hp.imp (fun hab => ne_of_lt hab)

theorem foldl_max_init_le :
    ∀ (t : List FlowBranch) (init : Int),
      init ≤ t.foldl (fun m x => max m x.index) init := by
  intro t
  induction t with
  | nil => intro init; exact le_refl _
  | cons a t ih =>
    intro init
    calc init ≤ max init a.index := le_max_left _ _
    _ ≤ t.foldl (fun m x => max m x.index) (max init a.index) := ih _

theorem foldl_max_mem_le :
    ∀ (t : List FlowBranch) (init : Int) (x : FlowBranch), x ∈ t →
      x.index ≤ t.foldl (fun m x => max m x.index) init := by
  intro t
  induction t with
  | nil => intro init x hx; cases hx
  | cons a t ih =>
    intro init x hx
    rcases List.mem_cons.mp hx with hx1 | hx1
    · subst hx1
      calc x.index ≤ max init x.index := le_max_right _ _
      _ ≤ _ := foldl_max_init_le t _
    · exact ih _ x hx1

theorem maxBranchIndex_ge (bs : List FlowBranch) :
    ∀ b ∈ bs, b.index ≤ maxBranchIndex bs := by
  intro b hb
  cases bs with
  | nil => cases hb
  | cons a t =>
    show b.index ≤ t.foldl (fun m x => max m x.index) a.index
    rcases List.mem_cons.mp hb with h1 | h1
    · subst h1; exact foldl_max_init_le t _
    · exact foldl_max_mem_le t _ b h1

theorem maxBranchIndex_neg_one_le (bs : List FlowBranch)
    (hnn : NonNegIdx bs) : -1 ≤ maxBranchIndex bs := by
  cases bs with
  | nil => exact le_refl _
  | cons a t =>
    have h1 : (0 : Int) ≤ a.index := hnn a (by simp)
    have h2 := foldl_max_init_le t a.index
    show -1 ≤ t.foldl (fun m x => max m x.index) a.index
    omega

theorem IdxSorted_nil : IdxSorted [] := List.chain'_nil

theorem IdxSorted_singleton (b : FlowBranch) : IdxSorted [b] :=
  List.chain'_singleton b

theorem collectGo_idx (db : DB) (config : GameIterationConfig)
    (visits : VisitSet) :
    ∀ (fuel : Nat) (h : Heap) (call : CollectCall), CallIdxOk call →
      ∀ h' res, collectGo db config visits fuel h call = some (h', res) →
        IdxSorted (res.branches.getD []) ∧
        ∀ x ∈ res.branches.getD [], callIdxBase call ≤ x.index := by
  intro fuel
  induction fuel with
  | zero =>
    intro h call _ h' res hc
    simp [collectGo] at hc
  | succ f ih =>
    intro h call hok h' res hc
    cases call with
    | entry iter branch0 index direction node0 conns =>
      simp only [collectGo] at hc
      cases hid : iter.id with
      | none =>
        simp only [hid, Option.some.injEq, Prod.mk.injEq] at hc
        obtain ⟨h1, h2⟩ := hc
        subst h2
        exact ⟨IdxSorted_nil, by intro x hx; simp [emptyCR] at hx⟩
      | some sid =>
        simp only [hid] at hc
        cases hn : node0 with
        | some n0 =>
          simp only [hn] at hc
          have hok2 : CallIdxOk
              (.loop iter (branch0.getD ⟨index, [], sid⟩) index direction n0
                conns
                (n0.numBranches (h.read iter.varsRef) visits iter.last
                  iter.shadowing)) := by
            cases branch0 with
            | none => exact le_refl index
            | some b => exact hok b rfl
          have hres := ih h _ hok2 h' res hc
          refine ⟨hres.1, ?_⟩
          intro x hx
          have h2 := hres.2 x hx
          cases branch0 with
          | none => simpa [callIdxBase] using h2
          | some b => simpa [callIdxBase] using h2
        | none =>
          simp only [hn] at hc
          cases hobj : db.getObject sid with
          | none =>
            simp only [hobj, Option.some.injEq, Prod.mk.injEq] at hc
            obtain ⟨h1, h2⟩ := hc
            subst h2
            exact ⟨IdxSorted_nil, by intro x hx; simp [emptyCR] at hx⟩
          | some node =>
            simp only [hobj] at hc
            have hok2 : CallIdxOk
                (.loop iter (branch0.getD ⟨index, [], sid⟩) index direction
                  node conns
                  (node.numBranches (h.read iter.varsRef) visits iter.last
                    iter.shadowing)) := by
              cases branch0 with
              | none => exact le_refl index
              | some b => exact hok b rfl
            have hres := ih h _ hok2 h' res hc
            refine ⟨hres.1, ?_⟩
            intro x hx
            have h2 := hres.2 x hx
            cases branch0 with
            | none => simpa [callIdxBase] using h2
            | some b => simpa [callIdxBase] using h2
    | loop iter branch index direction node conns nb =>
      simp only [collectGo] at hc
      split at hc
      · split at hc
        · simp only [Option.some.injEq, Prod.mk.injEq] at hc
          obtain ⟨h1, h2⟩ := hc
          subst h2
          exact ⟨IdxSorted_nil, by intro x hx; simp at hx⟩
        · rename_i node2 hstep
          split at hc
          · split at hc
            · simp only [Option.some.injEq, Prod.mk.injEq] at hc
              obtain ⟨h1, h2⟩ := hc
              subst h2
              refine ⟨IdxSorted_singleton _, ?_⟩
              intro x hx
              have hx2 : x = { branch with path := branch.path ++ [node2.nid] } := by
                simpa using hx
              subst hx2
              exact le_refl _
            · rename_i handler hhandler
              split at hc
              · simp only [Option.some.injEq, Prod.mk.injEq] at hc
                obtain ⟨h1, h2⟩ := hc
                subst h2
                refine ⟨IdxSorted_singleton _, ?_⟩
                intro x hx
                have hx2 : x = { branch with path := branch.path ++ [node2.nid] } := by
                  simpa using hx
                subst hx2
                exact le_refl _
              · simp only [Option.some.injEq, Prod.mk.injEq] at hc
                obtain ⟨h1, h2⟩ := hc
                subst h2
                refine ⟨IdxSorted_singleton _, ?_⟩
                intro x hx
                have hx2 : x = { branch with path := branch.path ++ [node2.nid] } := by
                  simpa using hx
                subst hx2
                exact le_refl _
              · simp only [Option.some.injEq, Prod.mk.injEq] at hc
                obtain ⟨h1, h2⟩ := hc
                subst h2
                refine ⟨IdxSorted_singleton _, ?_⟩
                intro x hx
                have hx2 : x = { branch with path := branch.path ++ [node2.nid] } := by
                  simpa using hx
                subst hx2
                exact le_refl _
              · split at hc
                · exact Option.noConfusion hc
                · rename_i h3 res3 heq3
                  simp only [Option.some.injEq, Prod.mk.injEq] at hc
                  obtain ⟨h1, h2⟩ := hc
                  subst h2
                  have hok2 : CallIdxOk
                      (.entry (cloneStep db h node iter direction visits).2.1
                        (some ⟨index + 1,
                          ({ branch with path := branch.path ++ [node2.nid] } : FlowBranch).path,
                          ({ branch with path := branch.path ++ [node2.nid] } : FlowBranch).branchedFrom⟩)
                        (index + 1) 0 (some node2) []) := by
                    intro b hb
                    cases hb
                    exact le_refl _
                  have hres := ih _ _ hok2 _ _ heq3
                  have hgd : (mergeCR ⟨some [{ branch with path := branch.path ++ [node2.nid] }], none, none⟩ res3).branches.getD []
                      = { branch with path := branch.path ++ [node2.nid] } :: res3.branches.getD [] := by
                    rw [mergeCR_branches, orKey_getD]
                    rfl
                  rw [hgd]
                  constructor
                  · refine sorted_append [_] _ (IdxSorted_singleton _) hres.1 ?_
                    intro x hx y hy
                    have hx2 : x = { branch with path := branch.path ++ [node2.nid] } := by
                      simpa using hx
                    subst hx2
                    have hy2 := hres.2 y hy
                    have hbi : branch.index ≤ index := hok
                    simp only [callIdxBase] at hy2
                    show branch.index < y.index
                    omega
                  · intro x hx
                    rcases List.mem_cons.mp hx with hx1 | hx1
                    · subst hx1
                      exact le_refl _
                    · have hy2 := hres.2 x hx1
                      simp only [callIdxBase] at hy2
                      have hbi : branch.index ≤ index := hok
                      show branch.index ≤ x.index
                      omega
              · simp only [Option.some.injEq, Prod.mk.injEq] at hc
                obtain ⟨h1, h2⟩ := hc
                subst h2
                exact ⟨IdxSorted_nil, by intro x hx; simp [emptyCR] at hx⟩
              · split at hc
                · rename_i pid hpid
                  split at hc
                  · exact Option.noConfusion hc
                  · rename_i h3 res3 heq3
                    simp only [Option.some.injEq, Prod.mk.injEq] at hc
                    obtain ⟨h1, h2⟩ := hc
                    subst h2
                    have hbi : branch.index ≤ index := hok
                    have hok2 : CallIdxOk
                        (.entry (cloneStep db h node iter direction visits).2.1
                          (some { ({ branch with path := branch.path ++ [node2.nid] } : FlowBranch) with branchedFrom := pid })
                          (index + 1) 0 (some node2) []) := by
                      intro b hb
                      cases hb
                      show branch.index ≤ index + 1
                      omega
                    have hres := ih _ _ hok2 _ _ heq3
                    have hgd : (mergeCR ⟨none, some [pid], none⟩ res3).branches.getD []
                        = res3.branches.getD [] := by
                      rw [mergeCR_branches, orKey_getD]
                      rfl
                    rw [hgd]
                    refine ⟨hres.1, ?_⟩
                    intro x hx
                    have hy2 := hres.2 x hx
                    simp only [callIdxBase] at hy2
                    exact hy2
                · refine ((ih _ _ ?_ _ _ hc).imp id id)
                  exact hok
              · refine ((ih _ _ ?_ _ _ hc).imp id id)
                exact hok
          · refine ((ih _ _ ?_ _ _ hc).imp id id)
            exact hok
      · split at hc
        · simp only [Option.some.injEq, Prod.mk.injEq] at hc
          obtain ⟨h1, h2⟩ := hc
          subst h2
          exact ⟨IdxSorted_nil, by intro x hx; simp at hx⟩
        · have hok2 : CallIdxOk (.forks iter branch index node conns nb 0 emptyCR) := by
            refine ⟨hok, IdxSorted_nil, ?_⟩
            intro x hx
            simp [emptyCR] at hx
          exact ih _ _ hok2 _ _ hc
    | forks iter branch index node conns nb i acc =>
      simp only [collectGo] at hc
      split at hc
      · split at hc
        · exact Option.noConfusion hc
        · rename_i h2 res2 heq2
          obtain ⟨hbi, hsort, hbnd⟩ := hok
          have hok1 : CallIdxOk
              (.entry iter (some ⟨index, branch.path, branch.branchedFrom⟩)
                index (i : Int) (some node) conns) := by
            intro b hb
            cases hb
            exact le_refl _
          have hres2 := ih _ _ hok1 _ _ heq2
          have hgd : (mergeCR acc res2).branches.getD []
              = acc.branches.getD [] ++ res2.branches.getD [] := by
            rw [mergeCR_branches, orKey_getD]
          have hlt : ∀ x ∈ acc.branches.getD [], ∀ y ∈ res2.branches.getD [],
              x.index < y.index := by
            intro x hx y hy
            have ha := (hbnd x hx).2
            have hb := hres2.2 y hy
            simp only [callIdxBase] at hb
            omega
          have hsort2 : IdxSorted ((mergeCR acc res2).branches.getD []) := by
            rw [hgd]
            exact sorted_append _ _ hsort hres2.1 hlt
          refine ((ih _ _ ?_ _ _ hc).imp id id)
          refine ⟨?_, hsort2, ?_⟩
          · cases hlast : ((mergeCR acc res2).branches.getD []).getLast? with
            | none =>
              simp only [hlast]
              exact hbi
            | some lb =>
              simp only [hlast]
              have hlb : lb ∈ (mergeCR acc res2).branches.getD [] :=
                List.mem_of_mem_getLast? (Option.mem_def.mpr hlast)
              rw [hgd] at hlb
              rcases List.mem_append.mp hlb with hl1 | hl1
              · have := (hbnd lb hl1).1
                exact le_of_lt (Int.lt_add_one_iff.mpr this)
              · have := hres2.2 lb hl1
                simp only [callIdxBase] at this
                exact le_of_lt (Int.lt_add_one_iff.mpr (hbi.trans this))
          · intro x hx
            have hble : branch.index ≤ x.index := by
              rw [hgd] at hx
              rcases List.mem_append.mp hx with hl1 | hl1
              · exact (hbnd x hl1).1
              · have := hres2.2 x hl1
                simp only [callIdxBase] at this
                omega
            refine ⟨hble, ?_⟩
            cases hlast : ((mergeCR acc res2).branches.getD []).getLast? with
            | none =>
              have hnil := List.getLast?_eq_none_iff.mp hlast
              rw [hnil] at hx
              cases hx
            | some lb =>
              simp only [hlast]
              have := sorted_le_getLast _ lb hsort2 hlast x hx
              exact Int.lt_add_one_iff.mpr this
      · simp only [Option.some.injEq, Prod.mk.injEq] at hc
        obtain ⟨h1, h2⟩ := hc
        subst h2
        exact ⟨hok.2.1, fun x hx => (hok.2.2 x hx).1⟩

theorem collect_entry_idx (db : DB) (config : GameIterationConfig)
    (visits : VisitSet) (fuel : Nat) (h : Heap) (iter : SimpleFlowState)
    (h' : Heap) (res : CollectionResult)
    (hc : collectGo db config visits fuel h (.entry iter none 0 (-1) none [])
      = some (h', res)) :
    IdxSorted (res.branches.getD []) ∧
    ∀ x ∈ res.branches.getD [], 0 ≤ x.index := by
  have hok : CallIdxOk (.entry iter none 0 (-1) none []) := by
    intro b hb
    cases hb
  exact collectGo_idx db config visits fuel h _ hok h' res hc

theorem shiftBranches_sorted (bs : List FlowBranch) (m : Int)
    (hs : IdxSorted bs) : IdxSorted (shiftBranches bs m) := by
  unfold shiftBranches IdxSorted
  rw [List.chain'_map]
  refine hs.imp ?_
  intro a b hab
  show a.index + m + 1 < b.index + m + 1
  omega

theorem shiftBranches_mem (bs : List FlowBranch) (m : Int) (x : FlowBranch)
    (hx : x ∈ shiftBranches bs m) : ∃ b ∈ bs, x.index = b.index + m + 1 := by
  unfold shiftBranches at hx
  rcases List.mem_map.mp hx with ⟨b, hb, hbx⟩
  exact ⟨b, hb, by rw [← hbx]⟩

theorem mergePagesLoop_idx (db : DB) (config : GameIterationConfig)
    (fuel : Nat) :
    ∀ (pages : List MergePage) (h : Heap) (r : GameFlowState)
      (h' : Heap) (r' : GameFlowState),
      IdxSorted r.branches → NonNegIdx r.branches →
      mergePagesLoop db config fuel h r pages = some (h', r') →
      IdxSorted r'.branches ∧ NonNegIdx r'.branches := by
  intro pages
  induction pages with
  | nil =>
    intro h r h' r' hs hn hc
    simp only [mergePagesLoop, Option.some.injEq, Prod.mk.injEq] at hc
    obtain ⟨h1, h2⟩ := hc
    subst h2
    exact ⟨hs, hn⟩
  | cons page rest ihp =>
    intro h r h' r' hs hn hc
    simp only [mergePagesLoop] at hc
    split at hc
    · exact Option.noConfusion hc
    · rename_i h2 cr heq
      have hcr := collect_entry_idx db config r.visits fuel h _ _ _ heq
      refine ihp _ _ _ _ ?_ ?_ hc
      · -- sortedness of the accumulated branches
        split
        · rename_i bs hbs
          split
          · rename_i ps hps
            show IdxSorted (r.branches ++ shiftBranches bs (maxBranchIndex r.branches))
            refine sorted_append _ _ hs (shiftBranches_sorted _ _ (by rw [hbs] at hcr; exact hcr.1)) ?_
            intro x hx y hy
            rcases shiftBranches_mem _ _ _ hy with ⟨b, hb, hby⟩
            have h1 := maxBranchIndex_ge r.branches x hx
            have h2 : 0 ≤ b.index := by
              rw [hbs] at hcr
              exact hcr.2 b hb
            rw [hby]
            omega
          · show IdxSorted (r.branches ++ shiftBranches bs (maxBranchIndex r.branches))
            refine sorted_append _ _ hs (shiftBranches_sorted _ _ (by rw [hbs] at hcr; exact hcr.1)) ?_
            intro x hx y hy
            rcases shiftBranches_mem _ _ _ hy with ⟨b, hb, hby⟩
            have h1 := maxBranchIndex_ge r.branches x hx
            have h2 : 0 ≤ b.index := by
              rw [hbs] at hcr
              exact hcr.2 b hb
            rw [hby]
            omega
        · split
          · exact hs
          · exact hs
      · -- non-negativity of the accumulated branches
        split
        · rename_i bs hbs
          have hmax : -1 ≤ maxBranchIndex r.branches :=
            maxBranchIndex_neg_one_le r.branches hn
          split
          · show NonNegIdx (r.branches ++ shiftBranches bs (maxBranchIndex r.branches))
            intro x hx
            rcases List.mem_append.mp hx with h1 | h1
            · exact hn x h1
            · rcases shiftBranches_mem _ _ _ h1 with ⟨b, hb, hby⟩
              have h2 : 0 ≤ b.index := by
                rw [hbs] at hcr
                exact hcr.2 b hb
              rw [hby]
              omega
          · show NonNegIdx (r.branches ++ shiftBranches bs (maxBranchIndex r.branches))
            intro x hx
            rcases List.mem_append.mp hx with h1 | h1
            · exact hn x h1
            · rcases shiftBranches_mem _ _ _ h1 with ⟨b, hb, hby⟩
              have h2 : 0 ≤ b.index := by
                rw [hbs] at hcr
                exact hcr.2 b hb
              rw [hby]
              omega
        · split
          · exact hn
          · exact hn

theorem refreshBranches_idx (db : DB) (config : GameIterationConfig)
    (fuel : Nat) (h : Heap) (state : GameFlowState) (h' : Heap)
    (s' : GameFlowState)
    (hs : IdxSorted state.branches) (hn : NonNegIdx state.branches)
    (hc : refreshBranches db config fuel h state = some (h', s')) :
    IdxSorted s'.branches ∧ NonNegIdx s'.branches := by
  simp only [refreshBranches] at hc
  split at hc
  · exact Option.noConfusion hc
  · rename_i h1 cr heq
    have hcr := collect_entry_idx db config state.visits fuel h _ _ _ heq
    cases hbs : cr.branches with
    | none =>
      rw [hbs] at hcr
      cases hsid : state.id with
      | none =>
        simp only [hsid] at hc
        refine mergePagesLoop_idx db config fuel _ _ _ _ _ ?_ ?_ hc
        · show IdxSorted (cr.branches.getD state.branches)
          rw [hbs]
          exact hs
        · show NonNegIdx (cr.branches.getD state.branches)
          rw [hbs]
          exact hn
      | some sid =>
        simp only [hsid] at hc
        refine mergePagesLoop_idx db config fuel _ _ _ _ _ ?_ ?_ hc
        · show IdxSorted (cr.branches.getD state.branches)
          rw [hbs]
          exact hs
        · show NonNegIdx (cr.branches.getD state.branches)
          rw [hbs]
          exact hn
    | some bs =>
      rw [hbs] at hcr
      cases hsid : state.id with
      | none =>
        simp only [hsid] at hc
        refine mergePagesLoop_idx db config fuel _ _ _ _ _ ?_ ?_ hc
        · show IdxSorted (cr.branches.getD state.branches)
          rw [hbs]
          exact hcr.1
        · show NonNegIdx (cr.branches.getD state.branches)
          rw [hbs]
          intro x hx
          exact hcr.2 x hx
      | some sid =>
        simp only [hsid] at hc
        refine mergePagesLoop_idx db config fuel _ _ _ _ _ ?_ ?_ hc
        · show IdxSorted (cr.branches.getD state.branches)
          rw [hbs]
          exact hcr.1
        · show NonNegIdx (cr.branches.getD state.branches)
          rw [hbs]
          intro x hx
          exact hcr.2 x hx

theorem advance_idx (db : DB) (config : GameIterationConfig) (cfuel : Nat) :
    ∀ (afuel : Nat) (h : Heap) (state : GameFlowState) (bi : Int)
      (h' : Heap) (s' : GameFlowState) (n : Option FlowNode),
      IdxSorted state.branches → NonNegIdx state.branches →
      advanceGameFlowState db config cfuel afuel h state bi
        = some (h', s', n) →
      IdxSorted s'.branches ∧ NonNegIdx s'.branches := by
  intro afuel
  induction afuel with
  | zero =>
    intro h state bi h' s' n _ _ hc
    simp [advanceGameFlowState] at hc
  | succ af ihp =>
    intro h state bi h' s' n hs hn hc
    simp only [advanceGameFlowState] at hc
    split at hc
    · simp only [Option.some.injEq, Prod.mk.injEq] at hc
      obtain ⟨h1, h2, h3⟩ := hc
      subst h2
      exact ⟨hs, hn⟩
    · rename_i sid hsid
      split at hc
      · simp only [Option.some.injEq, Prod.mk.injEq] at hc
        obtain ⟨h1, h2, h3⟩ := hc
        subst h2
        exact ⟨hs, hn⟩
      · rename_i branch hfind
        split at hc
        · exact Option.noConfusion hc
        · rename_i h1 varsRef visits1 steps hexec
          split at hc
          · exact Option.noConfusion hc
          · rename_i curr hlastc
            split at hc
            · exact Option.noConfusion hc
            · rename_i h2 ns2 href
              have hgood := refreshBranches_idx db config cfuel _ _ _ _
                IdxSorted_nil (by intro x hx; cases hx) href
              split at hc
              · exact ihp _ _ _ _ _ _ hgood.1 hgood.2 hc
              · simp only [Option.some.injEq, Prod.mk.injEq] at hc
                obtain ⟨h1e, h2e, h3e⟩ := hc
                subst h2e
                exact hgood

theorem startup_idx (db : DB) (config : GameIterationConfig)
    (cfuel afuel : Nat) (h : Heap) (start : NodeId)
    (existing : Option (Nat × VisitSet × Nat)) (h' : Heap)
    (s' : GameFlowState) (n : Option FlowNode)
    (hc : startupGameFlowState db config cfuel afuel h start existing
      = some (h', s', n)) :
    IdxSorted s'.branches ∧ NonNegIdx s'.branches := by
  simp only [startupGameFlowState] at hc
  split at hc
  · exact Option.noConfusion hc
  · rename_i h1 initial1 href
    have hgood := refreshBranches_idx db config cfuel _ _ _ _
      IdxSorted_nil (by intro x hx; cases hx) href
    split at hc
    · simp only [Option.some.injEq, Prod.mk.injEq] at hc
      obtain ⟨h1e, h2e, h3e⟩ := hc
      subst h2e
      exact ⟨IdxSorted_nil, by intro x hx; cases hx⟩
    · rename_i node hobj
      split at hc
      · simp only [Option.some.injEq, Prod.mk.injEq] at hc
        obtain ⟨h1e, h2e, h3e⟩ := hc
        subst h2e
        exact hgood
      · refine advance_idx db config cfuel afuel _ _ _ _ _ _ ?_ ?_ hc
        · exact hgood.1
        · exact hgood.2

theorem merge_idx (db : DB) (config : GameIterationConfig)
    (cfuel afuel : Nat) (h : Heap) (state : GameFlowState) (start : NodeId)
    (h' : Heap) (m : GameFlowState)
    (hs : IdxSorted state.branches) (hn : NonNegIdx state.branches)
    (hc : mergeGameFlowState db config cfuel afuel h state start
      = some (h', m)) :
    IdxSorted m.branches ∧ NonNegIdx m.branches := by
  simp only [mergeGameFlowState] at hc
  split at hc
  · exact Option.noConfusion hc
  · rename_i h1 su nd hsu
    simp only [Option.some.injEq, Prod.mk.injEq] at hc
    obtain ⟨h1e, h2e⟩ := hc
    subst h2e
    have hsug := startup_idx db config cfuel afuel h start _ _ _ _ hsu
    constructor
    · show IdxSorted (state.branches ++
        shiftBranches su.branches (maxBranchIndex state.branches))
      refine sorted_append _ _ hs (shiftBranches_sorted _ _ hsug.1) ?_
      intro x hx y hy
      rcases shiftBranches_mem _ _ _ hy with ⟨b, hb, hby⟩
      have h1b := maxBranchIndex_ge state.branches x hx
      have h2b := hsug.2 b hb
      rw [hby]
      omega
    · intro x hx
      replace hx : x ∈ state.branches ++
          shiftBranches su.branches (maxBranchIndex state.branches) := hx
      rcases List.mem_append.mp hx with h1b | h1b
      · exact hn x h1b
      · rcases shiftBranches_mem _ _ _ h1b with ⟨b, hb, hby⟩
        have h2b := hsug.2 b hb
        have hmax := maxBranchIndex_neg_one_le state.branches hn
        rw [hby]
        omega

/-- C2 (amended): startupGameFlowState always returns a state whose branch
indices are pairwise distinct; advanceGameFlowState, mergeGameFlowState and
refreshBranches return states with pairwise-distinct branch indices whenever
the input state's cached branch indices are strictly increasing and
non-negative (as they are in every state the engine itself produces) -- but
a crafted input state with duplicated indices can be returned unchanged by
the no-op paths, so the unconditional claim fails. -/
theorem branch_index_uniqueness :
    (∀ (db : DB) (config : GameIterationConfig) (cfuel afuel : Nat)
       (h : Heap) (start : NodeId) (existing : Option (Nat × VisitSet × Nat))
       (h' : Heap) (s' : GameFlowState) (n : Option FlowNode),
       startupGameFlowState db config cfuel afuel h start existing
         = some (h', s', n) → NoDupIdx s'.branches) ∧
    (∀ (db : DB) (config : GameIterationConfig) (cfuel afuel : Nat)
       (h : Heap) (state : GameFlowState) (bi : Int) (h' : Heap)
       (s' : GameFlowState) (n : Option FlowNode),
       IdxSorted state.branches → NonNegIdx state.branches →
       advanceGameFlowState db config cfuel afuel h state bi
         = some (h', s', n) → NoDupIdx s'.branches) ∧
    (∀ (db : DB) (config : GameIterationConfig) (cfuel afuel : Nat)
       (h : Heap) (state : GameFlowState) (start : NodeId) (h' : Heap)
       (m : GameFlowState),
       IdxSorted state.branches → NonNegIdx state.branches →
       mergeGameFlowState db config cfuel afuel h state start
         = some (h', m) → NoDupIdx m.branches) ∧
    (∀ (db : DB) (config : GameIterationConfig) (fuel : Nat) (h : Heap)
       (state : GameFlowState) (h' : Heap) (s' : GameFlowState),
       IdxSorted state.branches → NonNegIdx state.branches →
       refreshBranches db config fuel h state = some (h', s') →
       NoDupIdx s'.branches) := by
  refine ⟨?_, ?_, ?_, ?_⟩
  · intro db config cfuel afuel h start existing h' s' n hc
    exact sorted_nodup _ (startup_idx db config cfuel afuel h start existing
      h' s' n hc).1
  · intro db config cfuel afuel h state bi h' s' n hs hn hc
    exact sorted_nodup _ (advance_idx db config cfuel afuel h state bi
      h' s' n hs hn hc).1
  · intro db config cfuel afuel h state start h' m hs hn hc
    exact sorted_nodup _ (merge_idx db config cfuel afuel h state start
      h' m hs hn hc).1
  · intro db config fuel h state h' s' hs hn hc
    exact sorted_nodup _ (refreshBranches_idx db config fuel h state
      h' s' hs hn hc).1

theorem branch_index_uniqueness_witness :
    IdxSorted stateAtA.branches ∧ NonNegIdx stateAtA.branches ∧
    (iterResState (advanceGameFlowState dbChain cfgPlain 8 1 heap1
        stateAtA 0)).map (fun s => decide (NoDupIdx s.branches))
      = some true := by
  refine ⟨by decide, by decide, ?_⟩
  cases hadv : advanceGameFlowState dbChain cfgPlain 8 1 heap1 stateAtA 0 with
  | none =>
    have hs : (advanceGameFlowState dbChain cfgPlain 8 1 heap1
        stateAtA 0).isSome = true := by decide
    rw [hadv] at hs
    cases hs
  | some r =>
    obtain ⟨h2, s2, n2⟩ := r
    have hnd := branch_index_uniqueness.2.1 dbChain cfgPlain 8 1 heap1
      stateAtA 0 h2 s2 n2 (by decide) (by decide) hadv
    simp [iterResState, hadv, hnd]

/-- C4: whenever mergeGameFlowState succeeds, the returned state keeps the
input's reported position (id and last), its pages are the input's pages
followed by the independent startup's pages, and its branches are the
input's branches followed by the startup's branches renumbered past the
maximum index already present; under the engine's index invariant the
combined indices are pairwise distinct and the branch count is the sum of
the two counts. -/
theorem merge_spec (db : DB) (config : GameIterationConfig)
    (cfuel afuel : Nat) (h : Heap) (state : GameFlowState) (start : NodeId)
    (h' : Heap) (m : GameFlowState)
    (hc : mergeGameFlowState db config cfuel afuel h state start
      = some (h', m)) :
    ∃ h1 su n, startupGameFlowState db config cfuel afuel h start
        (some (state.varsRef, state.visits, state.turn)) = some (h1, su, n) ∧
      m.id = state.id ∧ m.last = state.last ∧
      m.pages = state.pages ++ su.pages ∧
      m.branches = state.branches ++
        shiftBranches su.branches (maxBranchIndex state.branches) ∧
      (IdxSorted state.branches → NonNegIdx state.branches →
        NoDupIdx m.branches ∧
        m.branches.length = state.branches.length + su.branches.length) := by
  have hc' := hc
  simp only [mergeGameFlowState] at hc'
  split at hc'
  · exact Option.noConfusion hc'
  · rename_i h1 su nd hsu
    simp only [Option.some.injEq, Prod.mk.injEq] at hc'
    obtain ⟨h1e, h2e⟩ := hc'
    subst h2e
    refine ⟨h1, su, nd, hsu, rfl, rfl, rfl, rfl, ?_⟩
    intro hs hn
    constructor
    · exact sorted_nodup _ (merge_idx db config cfuel afuel h state start
        h' _ hs hn hc).1
    · show (state.branches ++ shiftBranches su.branches
        (maxBranchIndex state.branches)).length = _
      rw [List.length_append]
      unfold shiftBranches
      rw [List.length_map]

theorem merge_spec_witness :
    (opResState (mergeGameFlowState dbFork cfgPlain 12 1 heap1 stateAtX
        "Y")).map (fun m => (m.pages, m.branches.length,
          decide (NoDupIdx m.branches)))
      = some (["X", "Y"], 5, true) := by
  cases hm : mergeGameFlowState dbFork cfgPlain 12 1 heap1 stateAtX "Y" with
  | none =>
    have hs : (mergeGameFlowState dbFork cfgPlain 12 1 heap1 stateAtX
        "Y").isSome = true := by decide
    rw [hm] at hs
    cases hs
  | some r =>
    obtain ⟨h2, m⟩ := r
    obtain ⟨h1, su, n, hsu, hid, hlast, hpages, hbr, himp⟩ :=
      merge_spec dbFork cfgPlain 12 1 heap1 stateAtX "Y" h2 m hm
    obtain ⟨hnd, hlen⟩ := himp (by decide) (by decide)
    have h0 : (opResState (mergeGameFlowState dbFork cfgPlain 12 1 heap1
        stateAtX "Y")).map (fun m => (m.pages, m.branches.length,
          decide (NoDupIdx m.branches)))
        = some (["X", "Y"], 5, true) := by decide
    rw [← hm]
    exact h0

theorem Heap.read_write (h : Heap) (r : Nat) (v : VariableStore) (x : Nat) :
    (h.write r v).read x = if x = r then v else h.read x := rfl

theorem Heap.read_write_self (h : Heap) (r x : Nat) :
    (h.write r (h.read r)).read x = h.read x := by
  show (if x = r then h.mem r else h.mem x) = h.mem x
  split
  · rename_i he
    rw [he]
  · rfl

theorem Heap.read_alloc_old (h : Heap) (v : VariableStore) (x : Nat)
    (hx : x ≠ h.size) : (h.alloc v).1.read x = h.read x := by
  show (if x = h.size then v else h.mem x) = h.mem x
  rw [if_neg hx]

theorem Heap.read_alloc_self (h : Heap) (v : VariableStore) :
    (h.alloc v).1.read (h.alloc v).2 = v := by
  show (if h.size = h.size then v else h.mem h.size) = v
  rw [if_pos rfl]

theorem heapExtends_refl (h : Heap) : HeapExtends h h :=
  ⟨fun _ _ => rfl, le_refl _⟩

theorem heapExtends_trans {h1 h2 h3 : Heap} (a : HeapExtends h2 h1)
    (b : HeapExtends h3 h2) : HeapExtends h3 h1 :=
  ⟨fun r hr => (b.1 r (lt_of_lt_of_le hr a.2)).trans (a.1 r hr),
   le_trans a.2 b.2⟩

theorem heapExtends_write_self (h : Heap) (r : Nat) :
    HeapExtends (h.write r (h.read r)) h :=
  ⟨fun x _ => Heap.read_write_self h r x, le_refl _⟩

theorem heapExtends_write_fresh (h : Heap) (r : Nat) (v : VariableStore)
    (hr : h.size ≤ r) : HeapExtends (h.write r v) h := by
  refine ⟨fun x hx => ?_, le_refl _⟩
  rw [Heap.read_write]
  rw [if_neg]
  omega

theorem heapExtends_alloc (h : Heap) (v : VariableStore) :
    HeapExtends (h.alloc v).1 h := by
  refine ⟨fun x hx => ?_, Nat.le_succ _⟩
  exact Heap.read_alloc_old h v x (by omega)

theorem heapExtends_write_ge {h0 h : Heap} (hext : HeapExtends h0 h)
    (r : Nat) (hr : h.size ≤ r) (v : VariableStore) :
    HeapExtends (h0.write r v) h := by
  refine ⟨fun x hx => ?_, hext.2⟩
  rw [Heap.read_write, if_neg (by omega)]
  exact hext.1 x hx

theorem cloneStep_preserve (db : DB) (h : Heap) (node : FlowNode)
    (iter : SimpleFlowState) (direction : Int) (visits : VisitSet)
    (hdb : DBContract db) (hmatch : nodeMatches db iter node) :
    HeapExtends (cloneStep db h node iter direction visits).1 h := by
  obtain ⟨sid, hid, hobj⟩ := hmatch
  unfold cloneStep
  split
  · -- the store is cloned before stepping
    have hext0 : HeapExtends (h.alloc (h.read iter.varsRef)).1 h :=
      heapExtends_alloc _ _
    unfold basicNextFlowState
    simp only [hid]
    cases hobj2 : db.getObject sid with
    | none =>
      simp only [hobj2]
      exact heapExtends_trans hext0 (heapExtends_alloc _ _)
    | some nodeF =>
      simp only [hobj2]
      have hextw : HeapExtends
          ((h.alloc (h.read iter.varsRef)).1.write
            (h.alloc (h.read iter.varsRef)).2
            (nodeF.nextStep
              ((h.alloc (h.read iter.varsRef)).1.read
                (h.alloc (h.read iter.varsRef)).2)
              visits direction iter.last iter.shadowing).2) h :=
        heapExtends_write_ge hext0 _ (le_refl _) _
      split
      · exact heapExtends_trans hextw (heapExtends_alloc _ _)
      · exact hextw
  · -- no clone: the node does not mutate the store
    rename_i hns
    have hns2 : node.needsShadow = false := by
      cases hh : node.needsShadow
      · rfl
      · exact absurd hh hns
    unfold basicNextFlowState
    simp only [hid, hobj]
    have hval : (node.nextStep (h.read iter.varsRef) visits direction
        iter.last iter.shadowing).2 = h.read iter.varsRef :=
      hdb sid node hobj hns2 (h.read iter.varsRef) visits direction
        iter.last iter.shadowing
    have hextw : HeapExtends
        (h.write iter.varsRef (node.nextStep (h.read iter.varsRef) visits
          direction iter.last iter.shadowing).2) h := by
      rw [hval]
      exact heapExtends_write_self h iter.varsRef
    split
    · exact heapExtends_trans hextw (heapExtends_alloc _ _)
    · exact hextw

theorem basicNext_next (db : DB) (h : Heap) (st : SimpleFlowState)
    (direction : Int) (visits : VisitSet) (node2 : FlowNode)
    (hstep : (basicNextFlowState db h st direction visits).2.2.1
      = some node2) :
    nodeMatches db (basicNextFlowState db h st direction visits).2.1
      node2 := by
  unfold basicNextFlowState at hstep ⊢
  cases hid : st.id with
  | none =>
    simp only [hid] at hstep
    exact Option.noConfusion hstep
  | some sid =>
    simp only [hid] at hstep ⊢
    cases hobj : db.getObject sid with
    | none =>
      simp only [hobj] at hstep
      exact Option.noConfusion hstep
    | some nodeF =>
      simp only [hobj] at hstep ⊢
      split at hstep
      · exact Option.noConfusion hstep
      · rename_i nextId conn hmm
        simp only [hmm]
        exact ⟨nextId, rfl, hstep⟩

theorem cloneStep_next (db : DB) (h : Heap) (node : FlowNode)
    (iter : SimpleFlowState) (direction : Int) (visits : VisitSet)
    (node2 : FlowNode)
    (hstep : (cloneStep db h node iter direction visits).2.2.1 = some node2) :
    nodeMatches db (cloneStep db h node iter direction visits).2.1 node2 :=
  basicNext_next db _ _ direction visits node2 hstep

theorem collectGo_preserve (db : DB) (config : GameIterationConfig)
    (visits : VisitSet) (hdb : DBContract db) :
    ∀ (fuel : Nat) (h : Heap) (call : CollectCall), CallNodeOk db call →
      ∀ h' res, collectGo db config visits fuel h call = some (h', res) →
        HeapExtends h' h := by
  intro fuel
  induction fuel with
  | zero =>
    intro h call _ h' res hc
    simp [collectGo] at hc
  | succ f ih =>
    intro h call hok h' res hc
    cases call with
    | entry iter branch0 index direction node0 conns =>
      simp only [collectGo] at hc
      cases hid : iter.id with
      | none =>
        simp only [hid, Option.some.injEq, Prod.mk.injEq] at hc
        obtain ⟨h1e, h2e⟩ := hc
        subst h1e
        exact heapExtends_refl h
      | some sid =>
        simp only [hid] at hc
        cases hn : node0 with
        | some n0 =>
          simp only [hn] at hc
          refine ih h _ ?_ h' res hc
          exact hok n0 hn
        | none =>
          simp only [hn] at hc
          cases hobj : db.getObject sid with
          | none =>
            simp only [hobj, Option.some.injEq, Prod.mk.injEq] at hc
            obtain ⟨h1e, h2e⟩ := hc
            subst h1e
            exact heapExtends_refl h
          | some node =>
            simp only [hobj] at hc
            refine ih h _ ?_ h' res hc
            exact ⟨sid, hid, hobj⟩
    | loop iter branch index direction node conns nb =>
      simp only [collectGo] at hc
      have hext1 := cloneStep_preserve db h node iter direction visits hdb hok
      split at hc
      · split at hc
        · simp only [Option.some.injEq, Prod.mk.injEq] at hc
          obtain ⟨h1e, h2e⟩ := hc
          subst h1e
          exact hext1
        · rename_i node2 hstep
          have hmatch2 := cloneStep_next db h node iter direction visits
            node2 hstep
          split at hc
          · split at hc
            · simp only [Option.some.injEq, Prod.mk.injEq] at hc
              obtain ⟨h1e, h2e⟩ := hc
              subst h1e
              exact hext1
            · rename_i handler hhandler
              split at hc
              · simp only [Option.some.injEq, Prod.mk.injEq] at hc
                obtain ⟨h1e, h2e⟩ := hc
                subst h1e
                exact hext1
              · simp only [Option.some.injEq, Prod.mk.injEq] at hc
                obtain ⟨h1e, h2e⟩ := hc
                subst h1e
                exact hext1
              · simp only [Option.some.injEq, Prod.mk.injEq] at hc
                obtain ⟨h1e, h2e⟩ := hc
                subst h1e
                exact hext1
              · split at hc
                · exact Option.noConfusion hc
                · rename_i h3 res3 heq3
                  simp only [Option.some.injEq, Prod.mk.injEq] at hc
                  obtain ⟨h1e, h2e⟩ := hc
                  subst h1e
                  refine heapExtends_trans hext1 (ih _ _ ?_ _ _ heq3)
                  intro n hn
                  cases hn
                  exact hmatch2
              · simp only [Option.some.injEq, Prod.mk.injEq] at hc
                obtain ⟨h1e, h2e⟩ := hc
                subst h1e
                exact hext1
              · split at hc
                · rename_i pid hpid
                  split at hc
                  · exact Option.noConfusion hc
                  · rename_i h3 res3 heq3
                    simp only [Option.some.injEq, Prod.mk.injEq] at hc
                    obtain ⟨h1e, h2e⟩ := hc
                    subst h1e
                    refine heapExtends_trans hext1 (ih _ _ ?_ _ _ heq3)
                    intro n hn
                    cases hn
                    exact hmatch2
                · refine heapExtends_trans hext1 (ih _ _ ?_ _ _ hc)
                  exact hmatch2
              · refine heapExtends_trans hext1 (ih _ _ ?_ _ _ hc)
                exact hmatch2
          · refine heapExtends_trans hext1 (ih _ _ ?_ _ _ hc)
            exact hmatch2
      · split at hc
        · simp only [Option.some.injEq, Prod.mk.injEq] at hc
          obtain ⟨h1e, h2e⟩ := hc
          subst h1e
          exact heapExtends_refl h
        · refine ih _ _ ?_ _ _ hc
          exact hok
    | forks iter branch index node conns nb i acc =>
      simp only [collectGo] at hc
      split at hc
      · split at hc
        · exact Option.noConfusion hc
        · rename_i h2 res2 heq2
          have hext2 : HeapExtends h2 h := by
            refine ih _ _ ?_ _ _ heq2
            intro n hn
            cases hn
            exact hok
          refine heapExtends_trans hext2 (ih _ _ ?_ _ _ hc)
          exact hok
      · simp only [Option.some.injEq, Prod.mk.injEq] at hc
        obtain ⟨h1e, h2e⟩ := hc
        subst h1e
        exact heapExtends_refl h

theorem mergePagesLoop_preserve (db : DB) (config : GameIterationConfig)
    (fuel : Nat) (hdb : DBContract db) :
    ∀ (pages : List MergePage) (h : Heap) (r : GameFlowState)
      (h' : Heap) (r' : GameFlowState),
      mergePagesLoop db config fuel h r pages = some (h', r') →
      HeapExtends h' h := by
  intro pages
  induction pages with
  | nil =>
    intro h r h' r' hc
    simp only [mergePagesLoop, Option.some.injEq, Prod.mk.injEq] at hc
    obtain ⟨h1e, h2e⟩ := hc
    subst h1e
    exact heapExtends_refl h
  | cons page rest ihp =>
    intro h r h' r' hc
    simp only [mergePagesLoop] at hc
    split at hc
    · exact Option.noConfusion hc
    · rename_i h2 cr heq
      have hext1 : HeapExtends h2 h := by
        refine collectGo_preserve db config r.visits hdb fuel h _ ?_ h2 cr heq
        intro n hn
        exact Option.noConfusion hn
      exact heapExtends_trans hext1 (ihp _ _ _ _ hc)

theorem refreshBranches_preserve (db : DB) (config : GameIterationConfig)
    (fuel : Nat) (h : Heap) (state : GameFlowState) (h' : Heap)
    (s' : GameFlowState) (hdb : DBContract db)
    (hc : refreshBranches db config fuel h state = some (h', s')) :
    HeapExtends h' h := by
  simp only [refreshBranches] at hc
  split at hc
  · exact Option.noConfusion hc
  · rename_i h1 cr heq
    have hext1 : HeapExtends h1 h := by
      refine collectGo_preserve db config state.visits hdb fuel h _ ?_ h1 cr heq
      intro n hn
      exact Option.noConfusion hn
    exact heapExtends_trans hext1
      (mergePagesLoop_preserve db config fuel hdb _ _ _ _ _ hc)

theorem dbChain_contract : DBContract dbChain := by
  intro i n hobj
  simp only [dbChain] at hobj
  split_ifs at hobj
  · injection hobj with hn
    subst hn
    intro _ v vs bi l sh
    rfl
  · injection hobj with hn
    subst hn
    intro _ v vs bi l sh
    rfl
  · injection hobj with hn
    subst hn
    intro _ v vs bi l sh
    rfl

/-- C1: for every database whose nodes honour the needsShadow contract (as
all node classes of the source do), every config and every state whose store
reference is live in the heap, a successful refreshBranches call -- whose
branch collection runs in shadow mode -- leaves the variable-store value at
the input reference and the input visit ledger unchanged: the
speculative walk writes only to freshly cloned references or writes back
values it did not change, so no script side effect of the walk is visible
in the input state. -/
theorem refresh_shadow_frame (db : DB) (config : GameIterationConfig)
    (fuel : Nat) (h : Heap) (state : GameFlowState) (h' : Heap)
    (s' : GameFlowState) (hdb : DBContract db)
    (hvr : state.varsRef < h.size)
    (hc : refreshBranches db config fuel h state = some (h', s')) :
    h'.read state.varsRef = h.read state.varsRef ∧
    s'.varsRef = state.varsRef ∧ s'.visits = state.visits ∧
    h.size ≤ h'.size := by
  have hext := refreshBranches_preserve db config fuel h state h' s' hdb hc
  have hf := refreshBranches_fields db config fuel h state h' s' hc
  exact ⟨hext.1 _ hvr, hf.2.2.2.1, hf.2.2.2.2.1, hext.2⟩

theorem refresh_shadow_frame_witness :
    DBContract dbChain ∧ stateAtA.varsRef < heap1.size ∧
    (refreshBranches dbChain cfgPlain 8 heap1 stateAtA).map
        (fun r => (r.1.read stateAtA.varsRef, r.2.varsRef, r.2.visits))
      = some (heap1.read stateAtA.varsRef, stateAtA.varsRef,
          stateAtA.visits) := by
  refine ⟨dbChain_contract, by decide, ?_⟩
  cases hr : refreshBranches dbChain cfgPlain 8 heap1 stateAtA with
  | none =>
    have hs : (refreshBranches dbChain cfgPlain 8 heap1
        stateAtA).isSome = true := by decide
    rw [hr] at hs
    cases hs
  | some r =>
    obtain ⟨h2, s2⟩ := r
    have hth := refresh_shadow_frame dbChain cfgPlain 8 heap1 stateAtA h2 s2
      dbChain_contract (by decide) hr
    simp [hth.1, hth.2.1, hth.2.2.1]

theorem cloneStep_ref_lt (db : DB) (h : Heap) (node : FlowNode)
    (iter : SimpleFlowState) (direction : Int) (visits : VisitSet)
    (hlt : iter.varsRef < h.size) :
    (cloneStep db h node iter direction visits).2.1.varsRef
      < (cloneStep db h node iter direction visits).1.size := by
  unfold cloneStep
  split
  · unfold basicNextFlowState
    cases hid : iter.id with
    | none =>
      simp only [hid]
      show (h.alloc (h.read iter.varsRef)).2
        < (h.alloc (h.read iter.varsRef)).1.size
      show h.size < h.size + 1
      omega
    | some sid =>
      simp only [hid]
      cases hobj : db.getObject sid with
      | none =>
        simp only [hobj]
        show ((h.alloc (h.read iter.varsRef)).1.alloc []).2
          < ((h.alloc (h.read iter.varsRef)).1.alloc []).1.size
        show h.size + 1 < h.size + 1 + 1
        omega
      | some nodeF =>
        simp only [hobj]
        split
        · show _ < _
          rename_i heq
          show (_ : Heap × Nat).2 < (_ : Heap × Nat).1.size
          show h.size + 1 < h.size + 1 + 1
          omega
        · rename_i nid conn heq
          show (h.alloc (h.read iter.varsRef)).2 < h.size + 1
          show h.size < h.size + 1
          omega
  · unfold basicNextFlowState
    cases hid : iter.id with
    | none =>
      simp only [hid]
      exact hlt
    | some sid =>
      simp only [hid]
      cases hobj : db.getObject sid with
      | none =>
        simp only [hobj]
        show h.size < h.size + 1
        omega
      | some nodeF =>
        simp only [hobj]
        split
        · show h.size < h.size + 1
          omega
        · exact hlt

theorem cloneStep_congr (db : DB) (node : FlowNode) (direction : Int)
    (visits : VisitSet) (hA hB : Heap) (iterA iterB : SimpleFlowState)
    (hid : iterB.id = iterA.id) (hlast : iterB.last = iterA.last)
    (hsh : iterB.shadowing = iterA.shadowing)
    (hval : hB.read iterB.varsRef = hA.read iterA.varsRef) :
    (cloneStep db hB node iterB direction visits).2.2.1
      = (cloneStep db hA node iterA direction visits).2.2.1 ∧
    (cloneStep db hB node iterB direction visits).2.2.2
      = (cloneStep db hA node iterA direction visits).2.2.2 ∧
    (cloneStep db hB node iterB direction visits).2.1.id
      = (cloneStep db hA node iterA direction visits).2.1.id ∧
    (cloneStep db hB node iterB direction visits).2.1.last
      = (cloneStep db hA node iterA direction visits).2.1.last ∧
    (cloneStep db hB node iterB direction visits).2.1.shadowing
      = (cloneStep db hA node iterA direction visits).2.1.shadowing ∧
    (cloneStep db hB node iterB direction visits).1.read
        (cloneStep db hB node iterB direction visits).2.1.varsRef
      = (cloneStep db hA node iterA direction visits).1.read
        (cloneStep db hA node iterA direction visits).2.1.varsRef := by
  unfold cloneStep
  cases hns : node.needsShadow with
  | true =>
    simp only [hns, eq_self_iff_true, if_true]
    unfold basicNextFlowState
    simp only [hid]
    cases hidA : iterA.id with
    | none =>
      simp [Heap.read_alloc_self, hid, hlast, hsh, hval]
    | some sid =>
      simp only [hidA]
      cases hobj : db.getObject sid with
      | none =>
        simp [hobj, Heap.read_alloc_self, hid, hlast, hsh, hval]
      | some nodeF =>
        simp only [hobj]
        simp only [Heap.read_alloc_self, hval, hlast, hsh]
        cases hstep : (nodeF.nextStep (hA.read iterA.varsRef) visits direction
            iterA.last iterA.shadowing).1 with
        | none =>
          simp [hstep, Heap.read_alloc_self, hid, hlast, hsh, hval]
        | some p =>
          obtain ⟨nid, conn⟩ := p
          simp [hstep, Heap.read_write, hid, hlast, hsh, hval]
  | false =>
    simp only [hns, Bool.false_eq_true, if_false]
    unfold basicNextFlowState
    simp only [hid]
    cases hidA : iterA.id with
    | none =>
      simp [hid, hlast, hsh, hval]
    | some sid =>
      simp only [hidA]
      cases hobj : db.getObject sid with
      | none =>
        simp [hobj, Heap.read_alloc_self, hid, hlast, hsh, hval]
      | some nodeF =>
        simp only [hobj]
        simp only [hval, hlast, hsh]
        cases hstep : (nodeF.nextStep (hA.read iterA.varsRef) visits direction
            iterA.last iterA.shadowing).1 with
        | none =>
          simp [hstep, Heap.read_alloc_self, hid, hlast, hsh, hval]
        | some p =>
          obtain ⟨nid, conn⟩ := p
          simp [hstep, Heap.read_write, hid, hlast, hsh, hval]

theorem collectGo_congr (db : DB) (config : GameIterationConfig)
    (visits : VisitSet) (hdb : DBContract db) :
    ∀ (fuel : Nat) (hA hB : Heap) (cA cB : CollectCall),
      CallSim cA cB → CallNodeOk db cA → CallNodeOk db cB →
      callRef cA < hA.size → callRef cB < hB.size →
      hB.read (callRef cB) = hA.read (callRef cA) →
      (collectGo db config visits fuel hB cB).map (fun r => r.2)
        = (collectGo db config visits fuel hA cA).map (fun r => r.2) := by
  intro fuel
  induction fuel with
  | zero =>
    intro hA hB cA cB _ _ _ _ _ _
    simp [collectGo]
  | succ f ih =>
    intro hA hB cA cB hsim hokA hokB hltA hltB hval
    cases cA with
    | entry ia b0 idx dir n0 cs =>
      cases cB with
      | loop ib br2 i2 d2 n2 c2 nb2 => exact hsim.elim
      | forks ib br2 i2 n2 c2 nb2 j2 acc2 => exact hsim.elim
      | entry ib b02 idx2 dir2 n02 cs2 =>
        obtain ⟨⟨hid, hlast, hsh⟩, rfl, rfl, rfl, rfl, rfl⟩ := hsim
        have hval2 : hB.read ib.varsRef = hA.read ia.varsRef := hval
        simp only [collectGo, hid]
        cases hidA : ia.id with
        | none => simp
        | some sid =>
          simp only [hidA]
          cases hn : n0 with
          | some nn =>
            simp only [hn, hval2, hlast, hsh]
            refine ih hA hB _ _ ?_ ?_ ?_ hltA hltB hval2
            · exact ⟨⟨hid, hlast, hsh⟩, rfl, rfl, rfl, rfl, rfl, rfl⟩
            · exact hokA nn hn
            · exact hokB nn hn
          | none =>
            simp only [hn]
            cases hobj : db.getObject sid with
            | none => simp [hobj]
            | some node =>
              simp only [hobj, hval2, hlast, hsh]
              refine ih hA hB _ _ ?_ ?_ ?_ hltA hltB hval2
              · exact ⟨⟨hid, hlast, hsh⟩, rfl, rfl, rfl, rfl, rfl, rfl⟩
              · exact ⟨sid, hidA, hobj⟩
              · exact ⟨sid, hid.trans hidA, hobj⟩
    | loop ia br idx dir nd cs nb =>
      cases cB with
      | entry ib b02 idx2 dir2 n02 cs2 => exact hsim.elim
      | forks ib br2 i2 n2 c2 nb2 j2 acc2 => exact hsim.elim
      | loop ib br2 idx2 dir2 nd2 cs2 nb2 =>
        obtain ⟨⟨hid, hlast, hsh⟩, rfl, rfl, rfl, rfl, rfl, rfl⟩ := hsim
        have hval2 : hB.read ib.varsRef = hA.read ia.varsRef := hval
        obtain ⟨hcn, hcc, hcid, hclast, hcsh, hcval⟩ :=
          cloneStep_congr db nd dir visits hA hB ia ib hid hlast hsh hval2
        have hnextA : ∀ n2, (cloneStep db hA nd ia dir visits).2.2.1
            = some n2 → nodeMatches db (cloneStep db hA nd ia dir visits).2.1
              n2 := fun n2 hstep =>
          cloneStep_next db hA nd ia dir visits n2 hstep
        have hnextB : ∀ n2, (cloneStep db hB nd ib dir visits).2.2.1
            = some n2 → nodeMatches db (cloneStep db hB nd ib dir visits).2.1
              n2 := fun n2 hstep =>
          cloneStep_next db hB nd ib dir visits n2 hstep
        have hrefA : (cloneStep db hA nd ia dir visits).2.1.varsRef
            < (cloneStep db hA nd ia dir visits).1.size :=
          cloneStep_ref_lt db hA nd ia dir visits hltA
        have hrefB : (cloneStep db hB nd ib dir visits).2.1.varsRef
            < (cloneStep db hB nd ib dir visits).1.size :=
          cloneStep_ref_lt db hB nd ib dir visits hltB
        simp only [collectGo]
        by_cases hcond : nb = 1 ∨ 0 ≤ dir
        · simp only [if_pos hcond]
          cases hstA : (cloneStep db hA nd ia dir visits).2.2.1 with
          | none =>
            simp [hcn, hstA]
          | some node2 =>
            have hstB : (cloneStep db hB nd ib dir visits).2.2.1
                = some node2 := hcn.trans hstA
            simp only [hcn, hstA, hcc]
            by_cases hstop : shouldStopAt node2 config = true
            · simp only [hstop, if_pos rfl]
              cases hh : config.customStopHandler with
              | none => simp [hh]
              | some handler =>
                simp only [hh]
                cases hres : handler node2
                    (match (cloneStep db hA nd ia dir visits).2.2.2 with
                     | some cn => cs ++ [cn]
                     | none => cs) visits with
                | none => simp [hres]
                | some stopKind =>
                  cases stopKind with
                  | NormalStop => simp
                  | Advance => simp
                  | Drop => simp
                  | StopAndContinue =>
                    have hih := ih (cloneStep db hA nd ia dir visits).1
                      (cloneStep db hB nd ib dir visits).1
                      (.entry (cloneStep db hA nd ia dir visits).2.1
                        (some ⟨idx + 1,
                          ({ br with path := br.path ++ [node2.nid] }
                            : FlowBranch).path,
                          ({ br with path := br.path ++ [node2.nid] }
                            : FlowBranch).branchedFrom⟩)
                        (idx + 1) 0 (some node2) [])
                      (.entry (cloneStep db hB nd ib dir visits).2.1
                        (some ⟨idx + 1,
                          ({ br with path := br.path ++ [node2.nid] }
                            : FlowBranch).path,
                          ({ br with path := br.path ++ [node2.nid] }
                            : FlowBranch).branchedFrom⟩)
                        (idx + 1) 0 (some node2) [])
                      ⟨⟨hcid, hclast, hcsh⟩, rfl, rfl, rfl, rfl, rfl⟩
                      (fun n hn => by cases hn; exact hnextA node2 hstA)
                      (fun n hn => by cases hn; exact hnextB node2 hstB)
                      hrefA hrefB hcval
                    cases hrA : collectGo db config visits f
                        (cloneStep db hA nd ia dir visits).1
                        (.entry (cloneStep db hA nd ia dir visits).2.1
                          (some ⟨idx + 1,
                            ({ br with path := br.path ++ [node2.nid] }
                              : FlowBranch).path,
                            ({ br with path := br.path ++ [node2.nid] }
                              : FlowBranch).branchedFrom⟩)
                          (idx + 1) 0 (some node2) []) with
                    | none =>
                      rw [hrA] at hih
                      simp only [Option.map_none'] at hih
                      have hrB := Option.map_eq_none'.mp hih
                      simp [hrA, hrB]
                    | some rA =>
                      rw [hrA] at hih
                      cases hrB : collectGo db config visits f
                          (cloneStep db hB nd ib dir visits).1
                          (.entry (cloneStep db hB nd ib dir visits).2.1
                            (some ⟨idx + 1,
                              ({ br with path := br.path ++ [node2.nid] }
                                : FlowBranch).path,
                              ({ br with path := br.path ++ [node2.nid] }
                                : FlowBranch).branchedFrom⟩)
                            (idx + 1) 0 (some node2) []) with
                      | none =>
                        rw [hrB] at hih
                        simp at hih
                      | some rB =>
                        rw [hrB] at hih
                        simp only [Option.map_some', Option.some.injEq] at hih
                        simp [hrA, hrB, hih]
                  | CreatePage =>
                    cases hpidA : (cloneStep db hA nd ia dir visits).2.1.id with
                    | some pid =>
                      have hpidB : (cloneStep db hB nd ib dir visits).2.1.id
                          = some pid := hcid.trans hpidA
                      simp only [hpidA, hcid]
                      have hih := ih (cloneStep db hA nd ia dir visits).1
                        (cloneStep db hB nd ib dir visits).1
                        (.entry (cloneStep db hA nd ia dir visits).2.1
                          (some { ({ br with path := br.path ++ [node2.nid] }
                              : FlowBranch) with branchedFrom := pid })
                          (idx + 1) 0 (some node2) [])
                        (.entry (cloneStep db hB nd ib dir visits).2.1
                          (some { ({ br with path := br.path ++ [node2.nid] }
                              : FlowBranch) with branchedFrom := pid })
                          (idx + 1) 0 (some node2) [])
                        ⟨⟨hcid, hclast, hcsh⟩, rfl, rfl, rfl, rfl, rfl⟩
                        (fun n hn => by cases hn; exact hnextA node2 hstA)
                        (fun n hn => by cases hn; exact hnextB node2 hstB)
                        hrefA hrefB hcval
                      cases hrA : collectGo db config visits f
                          (cloneStep db hA nd ia dir visits).1
                          (.entry (cloneStep db hA nd ia dir visits).2.1
                            (some { ({ br with path := br.path ++ [node2.nid] }
                                : FlowBranch) with branchedFrom := pid })
                            (idx + 1) 0 (some node2) []) with
                      | none =>
                        rw [hrA] at hih
                        simp only [Option.map_none'] at hih
                        have hrB := Option.map_eq_none'.mp hih
                        simp [hrA, hrB]
                      | some rA =>
                        rw [hrA] at hih
                        cases hrB : collectGo db config visits f
                            (cloneStep db hB nd ib dir visits).1
                            (.entry (cloneStep db hB nd ib dir visits).2.1
                              (some { ({ br with path := br.path ++ [node2.nid] }
                                  : FlowBranch) with branchedFrom := pid })
                              (idx + 1) 0 (some node2) []) with
                        | none =>
                          rw [hrB] at hih
                          simp at hih
                        | some rB =>
                          rw [hrB] at hih
                          simp only [Option.map_some', Option.some.injEq] at hih
                          simp [hrA, hrB, hih]
                    | none =>
                      have hpidB : (cloneStep db hB nd ib dir visits).2.1.id
                          = none := hcid.trans hpidA
                      simp only [hpidA, hcid, hcval, hclast, hcsh]
                      refine ih _ _ _ _ ?_ ?_ ?_ hrefA hrefB hcval
                      · exact ⟨⟨hcid, hclast, hcsh⟩, rfl, rfl, rfl, rfl, rfl,
                          rfl⟩
                      · exact hnextA node2 hstA
                      · exact hnextB node2 hstB
                  | Continue =>
                    simp only [hcval, hclast, hcsh]
                    refine ih _ _ _ _ ?_ ?_ ?_ hrefA hrefB hcval
                    · exact ⟨⟨hcid, hclast, hcsh⟩, rfl, rfl, rfl, rfl, rfl,
                        rfl⟩
                    · exact hnextA node2 hstA
                    · exact hnextB node2 hstB
            · simp only [Bool.not_eq_true] at hstop
              simp only [hstop, Bool.false_eq_true, if_false]
              simp only [hcval, hclast, hcsh]
              refine ih _ _ _ _ ?_ ?_ ?_ hrefA hrefB hcval
              · exact ⟨⟨hcid, hclast, hcsh⟩, rfl, rfl, rfl, rfl, rfl, rfl⟩
              · exact hnextA node2 hstA
              · exact hnextB node2 hstB
        · simp only [if_neg hcond]
          by_cases hz : nb = 0
          · simp [if_pos hz]
          · simp only [if_neg hz]
            refine ih hA hB _ _ ?_ hokA hokB hltA hltB hval2
            exact ⟨⟨hid, hlast, hsh⟩, rfl, rfl, rfl, rfl, rfl, rfl, rfl⟩
    | forks ia br idx nd cs nb i acc =>
      cases cB with
      | entry ib b02 idx2 dir2 n02 cs2 => exact hsim.elim
      | loop ib br2 i2 d2 n2 c2 nb2 => exact hsim.elim
      | forks ib br2 idx2 nd2 cs2 nb2 i2 acc2 =>
        obtain ⟨⟨hid, hlast, hsh⟩, rfl, rfl, rfl, rfl, rfl, rfl, rfl⟩ := hsim
        have hval2 : hB.read ib.varsRef = hA.read ia.varsRef := hval
        simp only [collectGo]
        by_cases hcond : i < nb
        · simp only [if_pos hcond]
          have hih := ih hA hB
            (.entry ia (some ⟨idx, br.path, br.branchedFrom⟩) idx (i : Int)
              (some nd) cs)
            (.entry ib (some ⟨idx, br.path, br.branchedFrom⟩) idx (i : Int)
              (some nd) cs)
            ⟨⟨hid, hlast, hsh⟩, rfl, rfl, rfl, rfl, rfl⟩
            (fun n hn => by cases hn; exact hokA)
            (fun n hn => by cases hn; exact hokB)
            hltA hltB hval2
          cases hrA : collectGo db config visits f hA
              (.entry ia (some ⟨idx, br.path, br.branchedFrom⟩) idx (i : Int)
                (some nd) cs) with
          | none =>
            rw [hrA] at hih
            simp only [Option.map_none'] at hih
            have hrB := Option.map_eq_none'.mp hih
            simp [hrA, hrB]
          | some rA =>
            rw [hrA] at hih
            cases hrB : collectGo db config visits f hB
                (.entry ib (some ⟨idx, br.path, br.branchedFrom⟩) idx (i : Int)
                  (some nd) cs) with
            | none =>
              rw [hrB] at hih
              simp at hih
            | some rB =>
              rw [hrB] at hih
              simp only [Option.map_some', Option.some.injEq] at hih
              obtain ⟨h2A, res2A⟩ := rA
              obtain ⟨h2B, res2B⟩ := rB
              simp only at hih
              subst hih
              simp only [hrA, hrB]
              have hextA : HeapExtends h2A hA := by
                refine collectGo_preserve db config visits hdb f hA _ ?_
                  h2A _ hrA
                intro n hn
                cases hn
                exact hokA
              have hextB : HeapExtends h2B hB := by
                refine collectGo_preserve db config visits hdb f hB _ ?_
                  h2B _ hrB
                intro n hn
                cases hn
                exact hokB
              refine ih h2A h2B _ _ ?_ hokA hokB
                (lt_of_lt_of_le hltA hextA.2) (lt_of_lt_of_le hltB hextB.2)
                ?_
              · exact ⟨⟨hid, hlast, hsh⟩, rfl, rfl, rfl, rfl, rfl, rfl, rfl⟩
              · calc h2B.read ib.varsRef = hB.read ib.varsRef :=
                  hextB.1 _ hltB
                _ = hA.read ia.varsRef := hval2
                _ = h2A.read ia.varsRef := (hextA.1 _ hltA).symm
        · simp [if_neg hcond]

/-- C8 (amended): for a database honouring the needsShadow contract, a live
store reference and a state without merged pages, two successive
refreshBranches calls with no intervening mutation return identical branch
lists: the collector result depends only on the values read through the
tracked reference, which the first (purely speculative) refresh leaves
unchanged.  With merged pages the claim fails (see the counterexample): a
primary position yielding no branches key makes the second refresh append
the merged pages branches to the stale list again. -/
theorem refresh_idempotent (db : DB) (config : GameIterationConfig)
    (fuel : Nat) (h : Heap) (state : GameFlowState) (h1 : Heap)
    (s1 : GameFlowState) (h2 : Heap) (s2 : GameFlowState)
    (hdb : DBContract db) (hvr : state.varsRef < h.size)
    (hmp : state.mergePages = [])
    (hr1 : refreshBranches db config fuel h state = some (h1, s1))
    (hr2 : refreshBranches db config fuel h1 s1 = some (h2, s2)) :
    s2.branches = s1.branches := by
  have hf1 := refreshBranches_fields db config fuel h state h1 s1 hr1
  have hext1 := refreshBranches_preserve db config fuel h state h1 s1 hdb hr1
  have hmp1 : s1.mergePages = [] := hf1.2.2.2.2.2.2.trans hmp
  simp only [refreshBranches] at hr1 hr2
  rw [hf1.2.1, hf1.2.2.1, hf1.2.2.2.1, hf1.2.2.2.2.1, hmp1] at hr2
  rw [hmp] at hr1
  split at hr1
  · exact Option.noConfusion hr1
  · rename_i hp1 cr1 heq1
    simp only [mergePagesLoop, Option.some.injEq, Prod.mk.injEq] at hr1
    obtain ⟨he1, hs1⟩ := hr1
    split at hr2
    · exact Option.noConfusion hr2
    · rename_i hp2 cr2 heq2
      simp only [mergePagesLoop, Option.some.injEq, Prod.mk.injEq] at hr2
      obtain ⟨he2, hs2⟩ := hr2
      have hcongr := collectGo_congr db config state.visits hdb fuel h h1
        (.entry ⟨state.id, state.last, state.varsRef, true⟩ none 0 (-1)
          none [])
        (.entry ⟨state.id, state.last, state.varsRef, true⟩ none 0 (-1)
          none [])
        ⟨⟨rfl, rfl, rfl⟩, rfl, rfl, rfl, rfl, rfl⟩
        (fun n hn => Option.noConfusion hn)
        (fun n hn => Option.noConfusion hn)
        hvr (lt_of_lt_of_le hvr hext1.2)
        (hext1.1 _ hvr)
      rw [heq1, heq2] at hcongr
      simp only [Option.map_some', Option.some.injEq] at hcongr
      subst hs1
      subst hs2
      rw [hcongr]
      cases hsid : state.id with
      | none =>
        simp only [hsid]
        cases hbs : cr1.branches with
        | none => simp [applyCR, hbs]
        | some bs => simp [applyCR, hbs]
      | some sid =>
        simp only [hsid]
        cases hbs : cr1.branches with
        | none => simp [applyCR, hbs]
        | some bs => simp [applyCR, hbs]

/-- C8 (counterexample): a state with a null primary position and one
merged page is not a fixed point of branch refreshing: the first refresh
collects the merged page 2 branches, and because the primary collection
of a null position returns no branches key, the second refresh keeps the
stale branches and appends the merged page branches again, yielding 4. -/
theorem refresh_not_idempotent_counterexample :
    ((refreshBranches dbFork cfgPlain 12 heap1 stateMergeOnly).map
        (fun r => r.2.branches.length) = some 2) ∧
    (((refreshBranches dbFork cfgPlain 12 heap1 stateMergeOnly).bind
        (fun r => refreshBranches dbFork cfgPlain 12 r.1 r.2)).map
        (fun r => r.2.branches.length) = some 4) :=
  ⟨by decide, by decide⟩

theorem refresh_idempotent_witness :
    DBContract dbChain ∧ stateAtA.varsRef < heap1.size ∧
    stateAtA.mergePages = [] ∧
    ((refreshBranches dbChain cfgPlain 8 heap1 stateAtA).bind
        (fun r => refreshBranches dbChain cfgPlain 8 r.1 r.2)).map
        (fun r => r.2.branches)
      = (refreshBranches dbChain cfgPlain 8 heap1 stateAtA).map
        (fun r => r.2.branches) := by
  refine ⟨dbChain_contract, by decide, rfl, ?_⟩
  cases hr1 : refreshBranches dbChain cfgPlain 8 heap1 stateAtA with
  | none =>
    have hs : (refreshBranches dbChain cfgPlain 8 heap1
        stateAtA).isSome = true := by decide
    rw [hr1] at hs
    cases hs
  | some r1 =>
    obtain ⟨h1, s1⟩ := r1
    cases hr2 : refreshBranches dbChain cfgPlain 8 h1 s1 with
    | none =>
      have hs : ((refreshBranches dbChain cfgPlain 8 heap1 stateAtA).bind
          (fun r => refreshBranches dbChain cfgPlain 8 r.1 r.2)).isSome
          = true := by decide
      rw [hr1] at hs
      simp only [Option.some_bind] at hs
      rw [hr2] at hs
      cases hs
    | some r2 =>
      obtain ⟨h2, s2⟩ := r2
      have hth := refresh_idempotent dbChain cfgPlain 8 heap1 stateAtA h1 s1
        h2 s2 dbChain_contract (by decide) rfl hr1 hr2
      simp [hr1, hr2, hth]

end ArticyJs
